import Mathlib

/-!
LRU cache (`main.go`): a shallow embedding and its verification

The Go program keeps a doubly linked queue of nodes between two sentinel
nodes, together with a map from keys to node pointers.  The embedding keeps
the pointer structure: nodes live in a heap (a list of nodes, a pointer is
`none` for nil or `some a` for the node allocated as number `a`), every field
access through a nil or dangling pointer fails (`none`), and the methods of
`Cache` pass the state explicitly.  Console output (`fmt.Printf`) is not
modelled; `Display` returns the keys it would print.

`Queue.Length` is a Go `int`; it stays between 0 and 6 in every run, so it is
modelled by `Int` without wrap-around.
-/

namespace LRU

/-- The constant `SIZE` of the source. -/
def SIZE : Int := 5

/-- A Go pointer `*Node`: `none` is nil, `some a` the node at heap slot `a`. -/
abbrev Ptr := Option Nat

/-- The struct `Node`. -/
structure Node where
  Val : String
  Left : Ptr
  Right : Ptr
deriving DecidableEq, Repr

/-- The heap of allocated nodes; `&Node{...}` appends a slot. -/
abbrev Heap := List Node

/-- The struct `Queue`. -/
structure Queue where
  Head : Ptr
  Tail : Ptr
  Length : Int
deriving DecidableEq, Repr

/-- The type `Hash` (`map[string]*Node`), as an association list whose keys
are kept pairwise distinct by `mapSet` and `mapDelete`. -/
abbrev Hash := List (String × Ptr)

/-- The struct `Cache`, together with the heap its pointers refer to. -/
structure Cache where
  heap : Heap
  Queue : Queue
  Hash : Hash
deriving DecidableEq, Repr

/-- Map lookup `val, ok := h[k]`: `none` when `ok` is false. -/
def mapGet : Hash → String → Option Ptr
  | [], _ => none
  | (k', v) :: h, k => if k' = k then some v else mapGet h k

/-- Map deletion `delete(h, k)`. -/
def mapDelete : Hash → String → Hash
  | [], _ => []
  | (k', v) :: h, k => if k' = k then mapDelete h k else (k', v) :: mapDelete h k

/-- Map assignment `h[k] = v`. -/
def mapSet (h : Hash) (k : String) (v : Ptr) : Hash :=
  (k, v) :: mapDelete h k

/-- Number of keys `len(h)` of a map with pairwise distinct keys. -/
def mapLen (h : Hash) : Nat := h.length

/-- The keys of a map. -/
def mapKeys (h : Hash) : List String := h.map Prod.fst

/-- Dereference `*p`: fails on nil and on a pointer outside the heap. -/
def load (m : Heap) : Ptr → Option Node
  | none => none
  | some a => m[a]?

/-- Field assignment `p.Left = v`. -/
def storeLeft (m : Heap) (p : Ptr) (v : Ptr) : Option Heap :=
  match p with
  | none => none
  | some a =>
    match m[a]? with
    | none => none
    | some nd => some (m.set a { nd with Left := v })

/-- Field assignment `p.Right = v`. -/
def storeRight (m : Heap) (p : Ptr) (v : Ptr) : Option Heap :=
  match p with
  | none => none
  | some a =>
    match m[a]? with
    | none => none
    | some nd => some (m.set a { nd with Right := v })

/-- Allocation `&Node{Val: s}`: the new heap and the pointer to the new node. -/
def alloc (m : Heap) (s : String) : Heap × Ptr :=
  (m ++ [{ Val := s, Left := none, Right := none }], some m.length)

/-- The function `NewQueue`, run on the heap `m`. -/
def NewQueue (m : Heap) : Option (Heap × Queue) :=
  match alloc m "" with
  | (m1, head) =>
    match alloc m1 "" with
    | (m2, tail) =>
      match storeRight m2 head tail with
      | none => none
      | some m3 =>
        match storeLeft m3 tail head with
        | none => none
        | some m4 => some (m4, { Head := head, Tail := tail, Length := 0 })

/-- The function `NewCache`, run on the empty heap. -/
def NewCache : Option Cache :=
  match NewQueue [] with
  | none => none
  | some (m, q) => some { heap := m, Queue := q, Hash := [] }

/-- The method `Cache.Remove`. -/
def Cache.Remove (c : Cache) (n : Ptr) : Option (Cache × Ptr) :=
  match load c.heap n with
  | none => none
  | some nd =>
    let left := nd.Left
    let right := nd.Right
    match storeRight c.heap left right with
    | none => none
    | some m1 =>
      match storeLeft m1 right left with
      | none => none
      | some m2 =>
        match load m2 n with
        | none => none
        | some nd2 =>
          some ({ heap := m2,
                  Queue := { Head := c.Queue.Head, Tail := c.Queue.Tail, Length := c.Queue.Length - 1 },
                  Hash := mapDelete c.Hash nd2.Val }, n)

/-- The method `Cache.Add`. -/
def Cache.Add (c : Cache) (n : Ptr) : Option Cache :=
  match load c.heap c.Queue.Head with
  | none => none
  | some hd =>
    let temp := hd.Right
    match storeRight c.heap c.Queue.Head n with
    | none => none
    | some m1 =>
      match storeLeft m1 n c.Queue.Head with
      | none => none
      | some m2 =>
        match storeRight m2 n temp with
        | none => none
        | some m3 =>
          match storeLeft m3 temp n with
          | none => none
          | some m4 =>
            let c1 : Cache :=
              { heap := m4,
                Queue := { Head := c.Queue.Head, Tail := c.Queue.Tail, Length := c.Queue.Length + 1 },
                Hash := c.Hash }
            if c1.Queue.Length > SIZE then
              match load c1.heap c1.Queue.Tail with
              | none => none
              | some tl =>
                match c1.Remove tl.Left with
                | none => none
                | some (c2, _) => some c2
            else some c1

/-- The method `Cache.Check`. -/
def Cache.Check (c : Cache) (str : String) : Option Cache :=
  let r : Option (Cache × Ptr) :=
    match mapGet c.Hash str with
    | some val => c.Remove val
    | none =>
      match alloc c.heap str with
      | (m, node) => some ({ heap := m, Queue := c.Queue, Hash := c.Hash }, node)
  match r with
  | none => none
  | some (c1, node) =>
    match c1.Add node with
    | none => none
    | some c2 => some { heap := c2.heap, Queue := c2.Queue, Hash := mapSet c2.Hash str node }

/-- The loop of `Queue.Display` from `node`, with at most `fuel` evaluations
of the loop test: every node visited, with the `Val` printed for it. -/
def walk (m : Heap) (tail : Ptr) : Nat → Ptr → Option (List (Nat × String))
  | 0, _ => none
  | fuel + 1, node =>
    if node = tail then some []
    else
      match node, load m node with
      | some a, some nd =>
        match walk m tail fuel nd.Right with
        | none => none
        | some rest => some ((a, nd.Val) :: rest)
      | _, _ => none

/-- The traversal of `Queue.Display`, which starts at `q.Head.Right`. -/
def Queue.traverse (q : Queue) (m : Heap) (fuel : Nat) : Option (List (Nat × String)) :=
  match load m q.Head with
  | none => none
  | some hd => walk m q.Tail fuel hd.Right

/-- The nodes visited by the loop of `Queue.Display`. -/
def Queue.nodes (q : Queue) (m : Heap) (fuel : Nat) : Option (List Nat) :=
  (q.traverse m fuel).map (List.map Prod.fst)

/-- The method `Queue.Display`: the keys printed, front to back. -/
def Queue.Display (q : Queue) (m : Heap) (fuel : Nat) : Option (List String) :=
  (q.traverse m fuel).map (List.map Prod.snd)

/-- The `Val` field of the node in slot `a` (the empty string outside the heap). -/
def valAt (m : Heap) (a : Nat) : String :=
  match m[a]? with
  | none => ""
  | some nd => nd.Val

/-- The live nodes of a cache, front to back.  The loop visits every allocated
node at most once unless the links cycle, so the heap size is enough fuel. -/
def Cache.nodes (c : Cache) : Option (List Nat) :=
  c.Queue.nodes c.heap c.heap.length

/-- The method `Cache.Display`: the front-to-back key sequence of the cache. -/
def Cache.Display (c : Cache) : Option (List String) :=
  c.Queue.Display c.heap c.heap.length

/-- A sequence of `Check` calls, as in the loop of `main`. -/
def Cache.touches : Cache → List String → Option Cache
  | c, [] => some c
  | c, k :: ks =>
    match c.Check k with
    | none => none
    | some c1 => c1.touches ks

/-- A new cache after touching the keys `ks` in order. -/
def run (ks : List String) : Option Cache :=
  match NewCache with
  | none => none
  | some c => c.touches ks

/-- The `Right` field of the node in slot `a`, when the slot is allocated. -/
def rightAt (m : Heap) (a : Nat) : Option Ptr := (m[a]?).map Node.Right

/-- The `Left` field of the node in slot `a`, when the slot is allocated. -/
def leftAt (m : Heap) (a : Nat) : Option Ptr := (m[a]?).map Node.Left

/-- Consecutive slots of the list point at each other: `Right` forwards and
`Left` backwards. -/
def Linked (m : Heap) : List Nat → Prop
  | a :: b :: rest =>
    rightAt m a = some (some b) ∧ leftAt m b = some (some a) ∧ Linked m (b :: rest)
  | _ => True

/-- The queue of `c` is the chain `Head, es, Tail`: `es` lists the live nodes
front to back, each as the pair of its key and its heap slot. -/
structure Chain (c : Cache) (es : List (String × Nat)) : Prop where
  head : c.Queue.Head = some 0
  tail : c.Queue.Tail = some 1
  len : c.Queue.Length = (es.length : Int)
  hlen : 2 ≤ c.heap.length
  bound : ∀ e ∈ es, 2 ≤ e.2 ∧ e.2 < c.heap.length
  val : ∀ e ∈ es, valAt c.heap e.2 = e.1
  nodupK : (es.map Prod.fst).Nodup
  nodupA : (es.map Prod.snd).Nodup
  linked : Linked c.heap (0 :: es.map Prod.snd ++ [1])
  headLeft : leftAt c.heap 0 = some none
  tailRight : rightAt c.heap 1 = some none

/-- The hash of `c` holds exactly the entries `es`. -/
def hashOf (es : List (String × Nat)) : Hash := es.map (fun e => (e.1, some e.2))

/-- The representation invariant of a cache between two `Check` calls. -/
structure Rep (c : Cache) (es : List (String × Nat)) : Prop where
  chain : Chain c es
  hash : c.Hash = hashOf es
  cap : es.length ≤ 5

/-- The test `_, ok := c.Hash[k]` of `Check`: whether the key is resident. -/
def Cache.resident (c : Cache) (k : String) : Bool := (mapGet c.Hash k).isSome

/-- The cache reached by touching `a`, `b`, `c` on a new cache. -/
def cacheABC : Cache :=
  { heap := [{ Val := "", Left := none, Right := some 4 },
             { Val := "", Left := some 2, Right := none },
             { Val := "a", Left := some 3, Right := some 1 },
             { Val := "b", Left := some 4, Right := some 2 },
             { Val := "c", Left := some 0, Right := some 3 }],
    Queue := { Head := some 0, Tail := some 1, Length := 3 },
    Hash := [("c", some 4), ("b", some 3), ("a", some 2)] }

/-- The full cache reached by touching `a`, `b`, `c`, `d`, `e` on a new cache. -/
def cacheFull : Cache :=
  { heap := [{ Val := "", Left := none, Right := some 6 },
             { Val := "", Left := some 2, Right := none },
             { Val := "a", Left := some 3, Right := some 1 },
             { Val := "b", Left := some 4, Right := some 2 },
             { Val := "c", Left := some 5, Right := some 3 },
             { Val := "d", Left := some 6, Right := some 4 },
             { Val := "e", Left := some 0, Right := some 5 }],
    Queue := { Head := some 0, Tail := some 1, Length := 5 },
    Hash := [("e", some 6), ("d", some 5), ("c", some 4), ("b", some 3), ("a", some 2)] }

/-- The list model of one touch: move or insert the key at the front and keep
at most `SIZE` keys. -/
def step (l : List String) (k : String) : List String :=
  (k :: l.erase k).take 5

/-- The statements of `Cache.Add` before its overflow test: the node is linked
right behind the head and `Length` grows by one. -/
def Cache.AddLink (c : Cache) (n : Ptr) : Option Cache :=
  match load c.heap c.Queue.Head with
  | none => none
  | some hd =>
    let temp := hd.Right
    match storeRight c.heap c.Queue.Head n with
    | none => none
    | some m1 =>
      match storeLeft m1 n c.Queue.Head with
      | none => none
      | some m2 =>
        match storeRight m2 n temp with
        | none => none
        | some m3 =>
          match storeLeft m3 temp n with
          | none => none
          | some m4 =>
            some { heap := m4,
                   Queue := { Head := c.Queue.Head, Tail := c.Queue.Tail, Length := c.Queue.Length + 1 },
                   Hash := c.Hash }

/-- The overflow test of `Cache.Add` and the eviction it guards, run on the
cache in which the node has been linked. -/
def Cache.AddEvict (c1 : Cache) : Option Cache :=
  if c1.Queue.Length > SIZE then
    match load c1.heap c1.Queue.Tail with
    | none => none
    | some tl =>
      match c1.Remove tl.Left with
      | none => none
      | some (c2, _) => some c2
  else some c1

/-- The backward traversal: from `node` through `Left` links until `head`,
with at most `fuel` tests; the nodes met, back to front. -/
def walkLeft (m : Heap) (head : Ptr) : Nat → Ptr → Option (List Nat)
  | 0, _ => none
  | fuel + 1, node =>
    if node = head then some []
    else
      match node, load m node with
      | some a, some nd =>
        match walkLeft m head fuel nd.Left with
        | none => none
        | some rest => some (a :: rest)
      | _, _ => none

/-- The nodes met from `q.Tail.Left` through `Left` links until `q.Head`. -/
def Queue.nodesBack (q : Queue) (m : Heap) (fuel : Nat) : Option (List Nat) :=
  match load m q.Tail with
  | none => none
  | some tl => walkLeft m q.Head fuel tl.Left

/-- The live nodes of a cache, back to front. -/
def Cache.nodesBack (c : Cache) : Option (List Nat) :=
  c.Queue.nodesBack c.heap c.heap.length

/-- The distinct keys of a touch history given latest first: every key at its
first (latest) occurrence. -/
def recent : List String → List String
  | [] => []
  | k :: hs => k :: (recent hs).filter (fun x => x ≠ k)

end LRU

namespace LRU

/-! ## Heap updates -/

theorem storeRight_spec (m : Heap) (a : Nat) (v : Ptr) (h : a < m.length) :
    ∃ m1, storeRight m (some a) v = some m1 ∧ m1.length = m.length ∧
      (∀ b, rightAt m1 b = if b = a then some v else rightAt m b) ∧
      (∀ b, leftAt m1 b = leftAt m b) ∧ (∀ b, valAt m1 b = valAt m b) := by
  refine ⟨m.set a { m[a] with Right := v }, ?_, by simp, ?_, ?_, ?_⟩
  · simp [storeRight, h]
  · intro b
    by_cases hb : b = a
    · subst hb; simp [rightAt, h]
    · simp [rightAt, hb, List.getElem?_set_ne (Ne.symm hb)]
  · intro b
    by_cases hb : b = a
    · subst hb; simp [leftAt, h]
    · simp [leftAt, List.getElem?_set_ne (Ne.symm hb)]
  · intro b
    by_cases hb : b = a
    · subst hb; simp [valAt, h]
    · simp [valAt, List.getElem?_set_ne (Ne.symm hb)]

theorem storeLeft_spec (m : Heap) (a : Nat) (v : Ptr) (h : a < m.length) :
    ∃ m1, storeLeft m (some a) v = some m1 ∧ m1.length = m.length ∧
      (∀ b, leftAt m1 b = if b = a then some v else leftAt m b) ∧
      (∀ b, rightAt m1 b = rightAt m b) ∧ (∀ b, valAt m1 b = valAt m b) := by
  refine ⟨m.set a { m[a] with Left := v }, ?_, by simp, ?_, ?_, ?_⟩
  · simp [storeLeft, h]
  · intro b
    by_cases hb : b = a
    · subst hb; simp [leftAt, h]
    · simp [leftAt, hb, List.getElem?_set_ne (Ne.symm hb)]
  · intro b
    by_cases hb : b = a
    · subst hb; simp [rightAt, h]
    · simp [rightAt, List.getElem?_set_ne (Ne.symm hb)]
  · intro b
    by_cases hb : b = a
    · subst hb; simp [valAt, h]
    · simp [valAt, List.getElem?_set_ne (Ne.symm hb)]

theorem load_of_lt (m : Heap) (a : Nat) (h : a < m.length) :
    ∃ nd, load m (some a) = some nd ∧ leftAt m a = some nd.Left ∧
      rightAt m a = some nd.Right ∧ valAt m a = nd.Val := by
  refine ⟨m[a], ?_, ?_, ?_, ?_⟩ <;> simp [load, leftAt, rightAt, valAt, h]

/-! ## Linked chains -/

theorem Linked_frame (m m1 : Heap) : ∀ xs : List Nat, Linked m xs →
    (∀ a ∈ xs.dropLast, rightAt m1 a = rightAt m a) →
    (∀ a ∈ xs.tail, leftAt m1 a = leftAt m a) → Linked m1 xs
  | [], _, _, _ => trivial
  | [_], _, _, _ => trivial
  | a :: b :: rest, h, hr, hl => by
    obtain ⟨h1, h2, h3⟩ := h
    refine ⟨?_, ?_, Linked_frame m m1 (b :: rest) h3 ?_ ?_⟩
    · rw [hr a (by simp), h1]
    · rw [hl b (by simp), h2]
    · intro x hx
      exact hr x (by simp only [List.dropLast_cons₂, List.mem_cons]; exact Or.inr hx)
    · intro x hx
      exact hl x (List.mem_cons_of_mem _ hx)

theorem Linked_append (m : Heap) (a : Nat) (ys : List Nat) : ∀ xs : List Nat,
    (Linked m (xs ++ a :: ys) ↔ Linked m (xs ++ [a]) ∧ Linked m (a :: ys))
  | [] => by simp [Linked]
  | [x] => by simp [Linked, and_assoc]
  | x :: y :: rest => by
    have ih := Linked_append m a ys (y :: rest)
    rw [List.cons_append] at ih
    show (_ ∧ _ ∧ Linked m (y :: (rest ++ a :: ys))) ↔
      (_ ∧ _ ∧ Linked m (y :: (rest ++ [a]))) ∧ _
    rw [ih]
    tauto

theorem Linked_remove (m m1 : Heap) (A B : List Nat) (l n r : Nat)
    (hnd : (A ++ l :: n :: r :: B).Nodup) (h : Linked m (A ++ l :: n :: r :: B))
    (hr : ∀ b, rightAt m1 b = if b = l then some (some r) else rightAt m b)
    (hl : ∀ b, leftAt m1 b = if b = r then some (some l) else leftAt m b) :
    Linked m1 (A ++ l :: r :: B) := by
  rw [Linked_append] at h ⊢
  obtain ⟨hA, _, _, _, _, hB⟩ := h
  simp only [List.nodup_append, List.nodup_cons, List.mem_cons, not_or,
    List.disjoint_cons_right] at hnd
  obtain ⟨_, ⟨⟨hln, hlr, hlB⟩, _, ⟨hrB, _⟩⟩, hlA, _, hrA, _⟩ := hnd
  refine ⟨Linked_frame m m1 _ hA ?_ ?_, ?_, ?_, Linked_frame m m1 _ hB ?_ ?_⟩
  · intro a ha
    rw [List.dropLast_concat] at ha
    rw [hr, if_neg]
    rintro rfl; exact hlA ha
  · intro a ha
    have ha' := List.mem_of_mem_tail ha
    rw [hl, if_neg]
    rintro rfl
    rcases List.mem_append.1 ha' with h' | h'
    · exact hrA h'
    · exact hlr (List.mem_singleton.1 h').symm
  · rw [hr, if_pos rfl]
  · rw [hl, if_pos rfl]
  · intro a ha
    have ha' := List.mem_of_mem_dropLast ha
    rw [hr, if_neg]
    rintro rfl
    rcases List.mem_cons.1 ha' with h' | h'
    · exact hlr h'
    · exact hlB h'
  · intro a ha
    rw [hl, if_neg]
    rintro rfl; exact hrB ha

theorem Linked_insert (m m1 : Heap) (h t a : Nat) (rest : List Nat)
    (hnd : (h :: t :: rest).Nodup) (ha : a ∉ h :: t :: rest)
    (hlk : Linked m (h :: t :: rest))
    (hr : ∀ b, rightAt m1 b =
      if b = a then some (some t) else if b = h then some (some a) else rightAt m b)
    (hl : ∀ b, leftAt m1 b =
      if b = t then some (some a) else if b = a then some (some h) else leftAt m b) :
    Linked m1 (h :: a :: t :: rest) := by
  obtain ⟨_, _, hB⟩ := hlk
  simp only [List.nodup_cons, List.mem_cons, not_or] at hnd ha
  obtain ⟨⟨hht, hhr⟩, htr, _⟩ := hnd
  obtain ⟨hah, hat, har⟩ := ha
  refine ⟨?_, ?_, ?_, ?_, Linked_frame m m1 _ hB ?_ ?_⟩
  · rw [hr, if_neg (Ne.symm hah), if_pos rfl]
  · rw [hl, if_neg hat, if_pos rfl]
  · rw [hr, if_pos rfl]
  · rw [hl, if_pos rfl]
  · intro b hb
    have hb' := List.mem_of_mem_dropLast hb
    rw [hr, if_neg, if_neg]
    · rintro rfl
      rcases List.mem_cons.1 hb' with h' | h'
      · exact hht h'
      · exact hhr h'
    · rintro rfl
      rcases List.mem_cons.1 hb' with h' | h'
      · exact hat h'
      · exact har h'
  · intro b hb
    rw [hl, if_neg, if_neg]
    · rintro rfl; exact har hb
    · rintro rfl; exact htr hb

/-! ## The traversal of a chain -/

theorem walk_linked (m : Heap) (t : Nat) : ∀ (es : List (String × Nat)) (p fuel : Nat),
    Linked m (p :: es.map Prod.snd ++ [t]) → t ∉ es.map Prod.snd →
    (∀ e ∈ es, e.2 < m.length ∧ valAt m e.2 = e.1) → es.length < fuel →
    ∃ q, rightAt m p = some q ∧
      walk m (some t) fuel q = some (es.map (fun e => (e.2, e.1)))
  | [], p, fuel, h, _, _, hf => by
    obtain ⟨h1, _⟩ := h
    refine ⟨some t, h1, ?_⟩
    obtain ⟨f, rfl⟩ : ∃ f, fuel = f + 1 := ⟨fuel - 1, by simp at hf; omega⟩
    simp [walk]
  | e :: es, p, fuel, h, ht, hb, hf => by
    obtain ⟨h1, _, h3⟩ := h
    refine ⟨some e.2, h1, ?_⟩
    obtain ⟨f, rfl⟩ : ∃ f, fuel = f + 1 := ⟨fuel - 1, by simp at hf; omega⟩
    simp only [List.map_cons, List.mem_cons, not_or] at ht
    obtain ⟨q, hq, hw⟩ := walk_linked m t es e.2 f h3 ht.2
      (fun x hx => hb x (List.mem_cons_of_mem _ hx)) (by simp at hf; omega)
    obtain ⟨hlt, hv⟩ := hb e (List.mem_cons_self _ _)
    obtain ⟨nd, hld, _, hR, hV⟩ := load_of_lt m e.2 hlt
    have hne : (some e.2 : Ptr) ≠ some t := by
      intro hh; exact ht.1 (Option.some.inj hh).symm
    have hR' : nd.Right = q := by
      rw [hq] at hR; exact (Option.some.inj hR).symm
    have hV' : nd.Val = e.1 := by rw [← hV, hv]
    simp [walk, hne, hld, hR', hw, hV']

theorem Chain.full_nodup {c : Cache} {es : List (String × Nat)} (h : Chain c es) :
    (0 :: es.map Prod.snd ++ [1]).Nodup := by
  have h0 : ∀ a ∈ es.map Prod.snd, 2 ≤ a := by
    intro a ha
    obtain ⟨e, he, rfl⟩ := List.mem_map.1 ha
    exact (h.bound e he).1
  simp only [List.cons_append, List.nodup_cons, List.mem_append, List.mem_singleton,
    not_or]
  refine ⟨⟨fun hh => ?_, by decide⟩, ?_⟩
  · have := h0 0 hh; omega
  · rw [List.nodup_append]
    refine ⟨h.nodupA, List.nodup_singleton 1, ?_⟩
    intro a ha hb
    have := h0 a ha
    rw [List.mem_singleton] at hb
    omega

theorem Chain.full_lt {c : Cache} {es : List (String × Nat)} (h : Chain c es) :
    ∀ a ∈ 0 :: es.map Prod.snd ++ [1], a < c.heap.length := by
  intro a ha
  have := h.hlen
  simp only [List.cons_append, List.mem_cons, List.mem_append, List.mem_singleton,
    List.mem_map, List.not_mem_nil, or_false] at ha
  rcases ha with rfl | ⟨e, he, rfl⟩ | rfl
  · omega
  · exact (h.bound e he).2
  · omega

theorem nodup_length_le (n : Nat) (l : List Nat) (hnd : l.Nodup)
    (hb : ∀ a ∈ l, a < n) : l.length ≤ n := by
  have h1 : l.toFinset ⊆ Finset.range n := by
    intro a ha
    rw [List.mem_toFinset] at ha
    exact Finset.mem_range.2 (hb a ha)
  have h2 := Finset.card_le_card h1
  rw [List.toFinset_card_of_nodup hnd, Finset.card_range] at h2
  exact h2

theorem Chain.length_lt {c : Cache} {es : List (String × Nat)} (h : Chain c es) :
    es.length < c.heap.length := by
  have := nodup_length_le c.heap.length _ h.full_nodup h.full_lt
  simp at this
  omega

theorem Chain.traverse_eq {c : Cache} {es : List (String × Nat)} (h : Chain c es) :
    c.Queue.traverse c.heap c.heap.length = some (es.map (fun e => (e.2, e.1))) := by
  have hnd := h.full_nodup
  have h1 : (1 : Nat) ∉ es.map Prod.snd := by
    intro hh
    obtain ⟨e, he, he1⟩ := List.mem_map.1 hh
    have := (h.bound e he).1
    omega
  obtain ⟨q, hq, hw⟩ := walk_linked c.heap 1 es 0 c.heap.length h.linked h1
    (fun e he => ⟨(h.bound e he).2, h.val e he⟩) h.length_lt
  obtain ⟨nd, hld, _, hR, _⟩ := load_of_lt c.heap 0 (by have := h.hlen; omega)
  have hR' : nd.Right = q := by
    rw [hq] at hR; exact (Option.some.inj hR).symm
  simp [Queue.traverse, h.head, h.tail, hld, hR', hw]

theorem Chain.nodes_eq {c : Cache} {es : List (String × Nat)} (h : Chain c es) :
    c.nodes = some (es.map Prod.snd) := by
  simp [Cache.nodes, Queue.nodes, h.traverse_eq]

theorem Chain.Display_eq {c : Cache} {es : List (String × Nat)} (h : Chain c es) :
    c.Display = some (es.map Prod.fst) := by
  simp [Cache.Display, Queue.Display, h.traverse_eq]

/-! ## `Remove` unlinks one live node -/

theorem Remove_spec (c : Cache) (xs ys : List (String × Nat)) (e : String × Nat)
    (h : Chain c (xs ++ e :: ys)) :
    ∃ c1, c.Remove (some e.2) = some (c1, some e.2) ∧ Chain c1 (xs ++ ys) ∧
      c1.Hash = mapDelete c.Hash e.1 ∧ c1.heap.length = c.heap.length ∧
      (∀ b, valAt c1.heap b = valAt c.heap b) := by
  have hnd := h.full_nodup
  have hlt := h.full_lt
  have hlk := h.linked
  obtain ⟨A, l, hP⟩ : ∃ A l, 0 :: xs.map Prod.snd = A ++ [l] := by
    rcases List.eq_nil_or_concat (0 :: xs.map Prod.snd) with h0 | ⟨A, l, h0⟩
    · simp at h0
    · exact ⟨A, l, by simpa using h0⟩
  obtain ⟨r, B, hS⟩ : ∃ r B, ys.map Prod.snd ++ [1] = r :: B :=
    List.exists_cons_of_ne_nil (by simp)
  have hfull : 0 :: (xs ++ e :: ys).map Prod.snd ++ [1] = A ++ l :: e.2 :: r :: B := by
    have h0 : 0 :: (xs ++ e :: ys).map Prod.snd ++ [1]
        = (0 :: xs.map Prod.snd) ++ e.2 :: (ys.map Prod.snd ++ [1]) := by simp
    rw [h0, hP, hS]; simp
  have hfull2 : 0 :: (xs ++ ys).map Prod.snd ++ [1] = A ++ l :: r :: B := by
    have h0 : 0 :: (xs ++ ys).map Prod.snd ++ [1]
        = (0 :: xs.map Prod.snd) ++ (ys.map Prod.snd ++ [1]) := by simp
    rw [h0, hP, hS]; simp
  rw [hfull] at hnd hlt hlk
  have hl_lt : l < c.heap.length := hlt l (by simp)
  have hr_lt : r < c.heap.length := hlt r (by simp)
  have he_lt : e.2 < c.heap.length := hlt e.2 (by simp)
  obtain ⟨_, _, hLe, hRe, _, _⟩ := (Linked_append c.heap l (e.2 :: r :: B) A).1 hlk
  obtain ⟨nd, hld, hL, hR, _⟩ := load_of_lt c.heap e.2 he_lt
  obtain ⟨m1, hs1, hlen1, hr1, hl1, hv1⟩ := storeRight_spec c.heap l (some r) hl_lt
  obtain ⟨m2, hs2, hlen2, hl2, hr2, hv2⟩ := storeLeft_spec m1 r (some l) (by omega)
  obtain ⟨nd2, hld2, _, _, hV2⟩ := load_of_lt m2 e.2 (by omega)
  have hval : nd2.Val = e.1 := by
    rw [← hV2, hv2, hv1]; exact h.val e (by simp)
  have hL1 : nd.Left = some l := by
    rw [hLe] at hL; exact (Option.some.inj hL).symm
  have hR1 : nd.Right = some r := by
    rw [hRe] at hR; exact (Option.some.inj hR).symm
  refine ⟨{ heap := m2, Queue := { Head := c.Queue.Head, Tail := c.Queue.Tail, Length := c.Queue.Length - 1 },
            Hash := mapDelete c.Hash e.1 }, ?_, ?_, rfl, by simp; omega, ?_⟩
  · simp [Cache.Remove, hld, hL1, hR1, hs1, hs2, hld2, hval]
  · have hsub : (xs ++ ys).Sublist (xs ++ e :: ys) :=
      List.Sublist.append_left (List.sublist_cons_self e ys) xs
    have hmem : ∀ x ∈ xs ++ ys, x ∈ xs ++ e :: ys := fun x hx => hsub.subset hx
    have hr0 : ¬ (0 = r) := by
      have hmr : r ∈ ys.map Prod.snd ++ [1] := by rw [hS]; simp
      rcases List.mem_append.1 hmr with h1 | h1
      · obtain ⟨x, hx, hx1⟩ := List.mem_map.1 h1
        have := (h.bound x (by simp [hx])).1
        omega
      · rw [List.mem_singleton] at h1; omega
    have hl1' : ¬ (1 = l) := by
      have hml : l ∈ 0 :: xs.map Prod.snd := by rw [hP]; simp
      rcases List.mem_cons.1 hml with h1 | h1
      · omega
      · obtain ⟨x, hx, hx1⟩ := List.mem_map.1 h1
        have := (h.bound x (by simp [hx])).1
        omega
    refine ⟨h.head, h.tail, ?_, ?_, ?_, ?_, ?_, ?_, ?_, ?_, ?_⟩
    · have := h.len
      simp only [List.length_append, List.length_cons] at this ⊢
      push_cast at this ⊢
      omega
    · have := h.hlen
      show 2 ≤ m2.length
      omega
    · intro x hx
      have := h.bound x (hmem x hx)
      show 2 ≤ x.2 ∧ x.2 < m2.length
      omega
    · intro x hx
      show valAt m2 x.2 = x.1
      rw [hv2, hv1]; exact h.val x (hmem x hx)
    · exact (hsub.map Prod.fst).nodup h.nodupK
    · exact (hsub.map Prod.snd).nodup h.nodupA
    · show Linked m2 (0 :: (xs ++ ys).map Prod.snd ++ [1])
      rw [hfull2]
      refine Linked_remove c.heap m2 A B l e.2 r hnd hlk ?_ ?_
      · intro b; rw [hr2, hr1]
      · intro b; rw [hl2, hl1]
    · show leftAt m2 0 = some none
      rw [hl2, if_neg hr0, hl1]; exact h.headLeft
    · show rightAt m2 1 = some none
      rw [hr2, hr1, if_neg hl1']; exact h.tailRight
  · intro b
    show valAt m2 b = valAt c.heap b
    rw [hv2, hv1]

/-! ## `Add` links a node behind the head and evicts on overflow -/

theorem Add_link (c : Cache) (es : List (String × Nat)) (k : String) (a : Nat)
    (h : Chain c es) (ha : 2 ≤ a ∧ a < c.heap.length) (hna : a ∉ es.map Prod.snd)
    (hnk : k ∉ es.map Prod.fst) (hv : valAt c.heap a = k) :
    ∃ hd m1 m2 m3 m4, load c.heap (some 0) = some hd ∧
      storeRight c.heap (some 0) (some a) = some m1 ∧
      storeLeft m1 (some a) (some 0) = some m2 ∧
      storeRight m2 (some a) hd.Right = some m3 ∧
      storeLeft m3 hd.Right (some a) = some m4 ∧
      m4.length = c.heap.length ∧ (∀ b, valAt m4 b = valAt c.heap b) ∧
      Chain { heap := m4, Queue := { Head := c.Queue.Head, Tail := c.Queue.Tail, Length := c.Queue.Length + 1 },
              Hash := c.Hash } ((k, a) :: es) := by
  have hnd := h.full_nodup
  have hlt := h.full_lt
  have hlk := h.linked
  have h2 := h.hlen
  obtain ⟨t, rest, hS⟩ : ∃ t rest, es.map Prod.snd ++ [1] = t :: rest :=
    List.exists_cons_of_ne_nil (by simp)
  rw [List.cons_append, hS] at hnd hlt hlk
  have hafull : a ∉ 0 :: t :: rest := by
    rw [← hS]
    simp only [List.mem_cons, List.mem_append, List.mem_singleton, List.not_mem_nil,
      or_false, not_or]
    exact ⟨by omega, hna, by omega⟩
  have ht_lt : t < c.heap.length := hlt t (by simp)
  obtain ⟨hd, hld, _, hR, _⟩ := load_of_lt c.heap 0 (by omega)
  have hR1 : hd.Right = some t := by
    rw [hlk.1] at hR; exact (Option.some.inj hR).symm
  obtain ⟨m1, hs1, hlen1, hr1, hl1, hv1⟩ := storeRight_spec c.heap 0 (some a) (by omega)
  obtain ⟨m2, hs2, hlen2, hl2, hr2, hv2⟩ := storeLeft_spec m1 a (some 0) (by omega)
  obtain ⟨m3, hs3, hlen3, hr3, hl3, hv3⟩ := storeRight_spec m2 a (some t) (by omega)
  obtain ⟨m4, hs4, hlen4, hl4, hr4, hv4⟩ := storeLeft_spec m3 t (some a) (by omega)
  have hvall : ∀ b, valAt m4 b = valAt c.heap b := by
    intro b; rw [hv4, hv3, hv2, hv1]
  refine ⟨hd, m1, m2, m3, m4, hld, hs1, hs2, by rw [hR1]; exact hs3,
    by rw [hR1]; exact hs4, by omega, hvall, ?_⟩
  have h0t : ¬ (0 = t) := by
    have hmt : t ∈ es.map Prod.snd ++ [1] := by rw [hS]; simp
    rcases List.mem_append.1 hmt with h1 | h1
    · obtain ⟨x, hx, hx1⟩ := List.mem_map.1 h1
      have := (h.bound x hx).1
      omega
    · rw [List.mem_singleton] at h1; omega
  refine ⟨h.head, h.tail, ?_, ?_, ?_, ?_, ?_, ?_, ?_, ?_, ?_⟩
  · have := h.len
    simp only [List.length_cons]
    push_cast
    omega
  · show 2 ≤ m4.length
    omega
  · intro x hx
    show 2 ≤ x.2 ∧ x.2 < m4.length
    rcases List.mem_cons.1 hx with rfl | hx
    · exact ⟨ha.1, by omega⟩
    · have := h.bound x hx
      omega
  · intro x hx
    show valAt m4 x.2 = x.1
    rw [hvall]
    rcases List.mem_cons.1 hx with rfl | hx
    · exact hv
    · exact h.val x hx
  · simp only [List.map_cons, List.nodup_cons]
    exact ⟨hnk, h.nodupK⟩
  · simp only [List.map_cons, List.nodup_cons]
    exact ⟨hna, h.nodupA⟩
  · show Linked m4 (0 :: ((k, a) :: es).map Prod.snd ++ [1])
    rw [List.map_cons, List.cons_append, List.cons_append, hS]
    refine Linked_insert c.heap m4 0 t a rest hnd hafull hlk ?_ ?_
    · intro b; rw [hr4, hr3, hr2, hr1]
    · intro b; rw [hl4, hl3, hl2, hl1]
  · show leftAt m4 0 = some none
    rw [hl4, if_neg h0t, hl3, hl2, if_neg (by omega), hl1]; exact h.headLeft
  · show rightAt m4 1 = some none
    rw [hr4, hr3, if_neg (by omega), hr2, hr1, if_neg (by omega)]; exact h.tailRight

theorem Add_spec (c : Cache) (es : List (String × Nat)) (k : String) (a : Nat)
    (h : Chain c es) (hcap : es.length ≤ 5) (ha : 2 ≤ a ∧ a < c.heap.length)
    (hna : a ∉ es.map Prod.snd) (hnk : k ∉ es.map Prod.fst) (hv : valAt c.heap a = k) :
    ∃ c2, c.Add (some a) = some c2 ∧ c2.heap.length = c.heap.length ∧
      (∀ b, valAt c2.heap b = valAt c.heap b) ∧
      ((es.length < 5 ∧ Chain c2 ((k, a) :: es) ∧ c2.Hash = c.Hash) ∨
       (es.length = 5 ∧ ∃ xs e, es = xs ++ [e] ∧ Chain c2 ((k, a) :: xs) ∧
          c2.Hash = mapDelete c.Hash e.1)) := by
  obtain ⟨hd, m1, m2, m3, m4, hld, hs1, hs2, hs3, hs4, hlen, hval, hch⟩ :=
    Add_link c es k a h ha hna hnk hv
  have hL := h.len
  by_cases hlt : es.length < 5
  · refine ⟨_, ?_, hlen, hval, Or.inl ⟨hlt, hch, rfl⟩⟩
    have hnot : ¬ (c.Queue.Length + 1 > SIZE) := by
      rw [hL]; simp only [SIZE]; omega
    simp [Cache.Add, h.head, hld, hs1, hs2, hs3, hs4, hnot]
  · have h5 : es.length = 5 := by omega
    obtain ⟨xs, e, hes⟩ : ∃ xs e, es = xs ++ [e] := by
      rcases List.eq_nil_or_concat es with h0 | ⟨xs, e, h0⟩
      · rw [h0] at h5; simp at h5
      · exact ⟨xs, e, by simpa using h0⟩
    have hch' := hch
    rw [hes, ← List.cons_append] at hch'
    obtain ⟨c2, hrem, hch2, hh2, hlen2, hval2⟩ := Remove_spec _ ((k, a) :: xs) [] e hch'
    have hlk := hch'.linked
    have hfull : 0 :: (((k, a) :: xs) ++ [e]).map Prod.snd ++ [1]
        = (0 :: a :: xs.map Prod.snd) ++ e.2 :: [1] := by simp
    rw [hfull] at hlk
    obtain ⟨_, _, hLt, _⟩ := (Linked_append _ e.2 [1] _).1 hlk
    obtain ⟨tl, hldt, hLtl, _, _⟩ := load_of_lt m4 1 (by have := h.hlen; omega)
    have hLt1 : tl.Left = some e.2 := by
      rw [show leftAt m4 1 = some (some e.2) from hLt] at hLtl
      exact (Option.some.inj hLtl).symm
    have hpos : c.Queue.Length + 1 > SIZE := by
      rw [hL]; simp only [SIZE]; omega
    refine ⟨c2, ?_, by rw [hlen2]; exact hlen, ?_, Or.inr ⟨h5, xs, e, hes, ?_, hh2⟩⟩
    · simp only [h.head, h.tail] at hrem
      simp [Cache.Add, h.head, h.tail, hld, hs1, hs2, hs3, hs4, hpos, hldt, hLt1, hrem]
    · intro b; rw [hval2]; exact hval b
    · simpa using hch2

/-! ## The hash of a represented cache -/

theorem mapDelete_append (h1 h2 : Hash) (k : String) :
    mapDelete (h1 ++ h2) k = mapDelete h1 k ++ mapDelete h2 k := by
  induction h1 with
  | nil => rfl
  | cons x t ih =>
    obtain ⟨k1, v⟩ := x
    by_cases hk : k1 = k
    · simp [mapDelete, hk, ih]
    · simp [mapDelete, hk, ih]

theorem mapDelete_hashOf_not_mem (es : List (String × Nat)) (k : String)
    (hk : k ∉ es.map Prod.fst) : mapDelete (hashOf es) k = hashOf es := by
  induction es with
  | nil => rfl
  | cons x t ih =>
    simp only [List.map_cons, List.mem_cons, not_or] at hk
    have ht := ih hk.2
    simp only [hashOf] at ht ⊢
    simp [mapDelete, Ne.symm hk.1, ht]

theorem hashOf_append (xs ys : List (String × Nat)) :
    hashOf (xs ++ ys) = hashOf xs ++ hashOf ys := by
  simp [hashOf]

theorem mapDelete_hashOf_mid (xs ys : List (String × Nat)) (e : String × Nat)
    (hnd : ((xs ++ e :: ys).map Prod.fst).Nodup) :
    mapDelete (hashOf (xs ++ e :: ys)) e.1 = hashOf (xs ++ ys) := by
  simp only [List.map_append, List.map_cons, List.nodup_append, List.nodup_cons,
    List.disjoint_cons_right] at hnd
  obtain ⟨_, ⟨hey, _⟩, hex, _⟩ := hnd
  rw [hashOf_append, mapDelete_append, mapDelete_hashOf_not_mem xs e.1 hex, hashOf_append]
  congr 1
  have := mapDelete_hashOf_not_mem ys e.1 hey
  simp only [hashOf] at this ⊢
  simp [mapDelete, this]

theorem mapGet_hashOf_none (es : List (String × Nat)) (k : String) :
    mapGet (hashOf es) k = none ↔ k ∉ es.map Prod.fst := by
  induction es with
  | nil => simp [hashOf, mapGet]
  | cons x t ih =>
    simp only [hashOf] at ih
    by_cases hk : x.1 = k
    · simp [hashOf, mapGet, hk]
    · simp [hashOf, mapGet, hk, ih, Ne.symm hk]

theorem mapGet_hashOf_some (es : List (String × Nat)) (k : String) (p : Ptr)
    (h : mapGet (hashOf es) k = some p) : ∃ a, p = some a ∧ (k, a) ∈ es := by
  induction es with
  | nil => simp [hashOf, mapGet] at h
  | cons x t ih =>
    simp only [hashOf] at ih
    by_cases hk : x.1 = k
    · simp only [hashOf, List.map_cons, mapGet, hk, if_true, Option.some.injEq] at h
      exact ⟨x.2, h.symm, by rw [← hk]; simp⟩
    · simp only [hashOf, List.map_cons, mapGet, hk, if_false] at h
      obtain ⟨a, ha, hm⟩ := ih h
      exact ⟨a, ha, List.mem_cons_of_mem _ hm⟩

theorem mapGet_hashOf_mem (es : List (String × Nat)) (k : String) (a : Nat)
    (hnd : (es.map Prod.fst).Nodup) (hm : (k, a) ∈ es) :
    mapGet (hashOf es) k = some (some a) := by
  induction es with
  | nil => simp at hm
  | cons x t ih =>
    simp only [List.map_cons, List.nodup_cons] at hnd
    simp only [hashOf] at ih
    rcases List.mem_cons.1 hm with rfl | hm
    · simp [hashOf, mapGet]
    · have hne : x.1 ≠ k := by
        intro hx
        exact hnd.1 (List.mem_map.2 ⟨(k, a), hm, hx.symm⟩)
      simp [hashOf, mapGet, hne, ih hnd.2 hm]

/-! ## `Check` on a represented cache -/

theorem Chain.alloc {c : Cache} {es : List (String × Nat)} (h : Chain c es) (x : Node) :
    Chain { heap := c.heap ++ [x], Queue := c.Queue, Hash := c.Hash } es := by
  have hlt := h.full_lt
  have hget : ∀ b, b < c.heap.length → (c.heap ++ [x])[b]? = c.heap[b]? :=
    fun b hb => List.getElem?_append_left hb
  refine ⟨h.head, h.tail, h.len, ?_, ?_, ?_, h.nodupK, h.nodupA, ?_, ?_, ?_⟩
  · have := h.hlen
    simp only [List.length_append, List.length_singleton]
    omega
  · intro e he
    have := h.bound e he
    simp only [List.length_append, List.length_singleton]
    omega
  · intro e he
    show valAt (c.heap ++ [x]) e.2 = e.1
    rw [← h.val e he]
    simp only [valAt, hget e.2 (h.bound e he).2]
  · refine Linked_frame c.heap _ _ h.linked ?_ ?_
    · intro a ha
      simp only [rightAt, hget a (hlt a (List.mem_of_mem_dropLast ha))]
    · intro a ha
      simp only [leftAt, hget a (hlt a (List.mem_of_mem_tail ha))]
  · have h0 := h.headLeft
    simp only [leftAt] at h0 ⊢
    rw [hget 0 (by have := h.hlen; omega)]; exact h0
  · have h1 := h.tailRight
    simp only [rightAt] at h1 ⊢
    rw [hget 1 (by have := h.hlen; omega)]; exact h1

theorem Check_hit (c : Cache) (xs ys : List (String × Nat)) (k : String) (a : Nat)
    (h : Rep c (xs ++ (k, a) :: ys)) :
    ∃ c2, c.Check k = some c2 ∧ Rep c2 ((k, a) :: (xs ++ ys)) := by
  have hch := h.chain
  have hget : mapGet c.Hash k = some (some a) := by
    rw [h.hash]; exact mapGet_hashOf_mem _ k a hch.nodupK (by simp)
  obtain ⟨c1, hrem, hch1, hh1, hlen1, hval1⟩ := Remove_spec c xs ys (k, a) hch
  have hndK := hch.nodupK
  have hndA := hch.nodupA
  simp only [List.map_append, List.map_cons, List.nodup_append, List.nodup_cons,
    List.disjoint_cons_right] at hndK hndA
  have hcap := h.cap
  simp only [List.length_append, List.length_cons] at hcap
  have hb := hch.bound (k, a) (by simp)
  have hlen' : (xs ++ ys).length ≤ 5 := by
    simp only [List.length_append]; omega
  obtain ⟨c2, hadd, _, _, hcase⟩ := Add_spec c1 (xs ++ ys) k a hch1 hlen'
    ⟨hb.1, by rw [hlen1]; exact hb.2⟩
    (by simp only [List.map_append, List.mem_append, not_or]
        exact ⟨hndA.2.2.1, hndA.2.1.1⟩)
    (by simp only [List.map_append, List.mem_append, not_or]
        exact ⟨hndK.2.2.1, hndK.2.1.1⟩)
    (by rw [hval1]; exact hch.val (k, a) (by simp))
  have hcase' : Chain c2 ((k, a) :: (xs ++ ys)) ∧ c2.Hash = c1.Hash := by
    rcases hcase with ⟨_, h1, h2⟩ | ⟨h5, _⟩
    · exact ⟨h1, h2⟩
    · simp only [List.length_append] at h5; omega
  obtain ⟨hch2, hh2⟩ := hcase'
  have hnk : k ∉ (xs ++ ys).map Prod.fst := by
    simp only [List.map_append, List.mem_append, not_or]
    exact ⟨hndK.2.2.1, hndK.2.1.1⟩
  refine ⟨{ heap := c2.heap, Queue := c2.Queue, Hash := mapSet c2.Hash k (some a) }, ?_, ?_⟩
  · simp [Cache.Check, hget, hrem, hadd]
  · refine ⟨⟨hch2.head, hch2.tail, hch2.len, hch2.hlen, hch2.bound, hch2.val, hch2.nodupK,
      hch2.nodupA, hch2.linked, hch2.headLeft, hch2.tailRight⟩, ?_, ?_⟩
    · show mapSet c2.Hash k (some a) = hashOf ((k, a) :: (xs ++ ys))
      rw [hh2, hh1, h.hash]
      have := mapDelete_hashOf_mid xs ys (k, a) hch.nodupK
      simp only at this
      rw [this, mapSet, mapDelete_hashOf_not_mem _ k hnk]
      rfl
    · simp only [List.length_cons, List.length_append]; omega

theorem Check_miss (c : Cache) (es : List (String × Nat)) (k : String)
    (h : Rep c es) (hk : k ∉ es.map Prod.fst) :
    ∃ c2, c.Check k = some c2 ∧
      ((es.length < 5 ∧ Rep c2 ((k, c.heap.length) :: es)) ∨
       (es.length = 5 ∧ Rep c2 ((k, c.heap.length) :: es.dropLast))) := by
  have hch := h.chain
  have hget : mapGet c.Hash k = none := by
    rw [h.hash]; exact (mapGet_hashOf_none es k).2 hk
  have hch0 := hch.alloc { Val := k, Left := none, Right := none }
  have hna : c.heap.length ∉ es.map Prod.snd := by
    intro hh
    obtain ⟨e, he, he1⟩ := List.mem_map.1 hh
    have := (hch.bound e he).2
    omega
  obtain ⟨c2, hadd, _, _, hcase⟩ := Add_spec _ es k c.heap.length hch0 h.cap
    ⟨hch.hlen, by simp⟩ hna hk (by simp [valAt])
  refine ⟨{ heap := c2.heap, Queue := c2.Queue, Hash := mapSet c2.Hash k (some c.heap.length) },
    ?_, ?_⟩
  · simp [Cache.Check, hget, alloc, hadd]
  · rcases hcase with ⟨hlt, hch2, hh2⟩ | ⟨h5, xs, e, hes, hch2, hh2⟩
    · refine Or.inl ⟨hlt, ⟨hch2.head, hch2.tail, hch2.len, hch2.hlen, hch2.bound, hch2.val,
        hch2.nodupK, hch2.nodupA, hch2.linked, hch2.headLeft, hch2.tailRight⟩, ?_, ?_⟩
      · show mapSet c2.Hash k (some c.heap.length) = hashOf ((k, c.heap.length) :: es)
        rw [hh2]
        show mapSet c.Hash k (some c.heap.length) = _
        rw [h.hash, mapSet, mapDelete_hashOf_not_mem _ k hk]
        rfl
      · simp only [List.length_cons]; omega
    · have hdl : es.dropLast = xs := by rw [hes]; simp
      have hnk : k ∉ xs.map Prod.fst := by
        intro hh
        apply hk
        rw [hes, List.map_append]
        exact List.mem_append_left _ hh
      have hxl : xs.length + 1 = 5 := by
        rw [hes] at h5; simpa using h5
      refine Or.inr ⟨h5, ?_⟩
      rw [hdl]
      refine ⟨⟨hch2.head, hch2.tail, hch2.len, hch2.hlen, hch2.bound, hch2.val,
        hch2.nodupK, hch2.nodupA, hch2.linked, hch2.headLeft, hch2.tailRight⟩, ?_, ?_⟩
      · show mapSet c2.Hash k (some c.heap.length) = hashOf ((k, c.heap.length) :: xs)
        rw [hh2]
        show mapSet (mapDelete c.Hash e.1) k (some c.heap.length) = _
        rw [h.hash]
        have hnd := hch.nodupK
        rw [hes] at hnd
        have := mapDelete_hashOf_mid xs [] e hnd
        rw [List.append_nil] at this
        rw [hes, this, mapSet, mapDelete_hashOf_not_mem _ k hnk]
        rfl
      · simp only [List.length_cons]; omega

theorem NewCache_rep : ∃ c, NewCache = some c ∧ Rep c [] := by
  refine ⟨_, rfl, ⟨rfl, rfl, rfl, by decide, ?_, ?_, ?_, ?_, ?_, rfl, rfl⟩, rfl, by decide⟩
  · intro e he; simp at he
  · intro e he; simp at he
  · simp
  · simp
  · refine ⟨rfl, rfl, trivial⟩

/-! ## Reachable states are represented -/

theorem Check_rep (c : Cache) (es : List (String × Nat)) (k : String) (h : Rep c es) :
    ∃ c2 es2, c.Check k = some c2 ∧ Rep c2 es2 ∧
      es2.map Prod.fst = step (es.map Prod.fst) k := by
  have hcap := h.cap
  by_cases hk : k ∈ es.map Prod.fst
  · obtain ⟨e, he, rfl⟩ := List.mem_map.1 hk
    obtain ⟨xs, ys, rfl⟩ := List.append_of_mem he
    have hnd := h.chain.nodupK
    simp only [List.map_append, List.map_cons, List.nodup_append, List.nodup_cons,
      List.disjoint_cons_right] at hnd
    obtain ⟨c2, hc, hr⟩ := Check_hit c xs ys e.1 e.2 h
    refine ⟨c2, _, hc, hr, ?_⟩
    simp only [List.length_append, List.length_cons] at hcap
    simp only [step, List.map_cons, List.map_append]
    rw [List.erase_append_right _ hnd.2.2.1, List.erase_cons_head, List.take_of_length_le]
    simp only [List.length_cons, List.length_append, List.length_map]
    omega
  · obtain ⟨c2, hc, hr⟩ := Check_miss c es k h hk
    rcases hr with ⟨hlt, hr⟩ | ⟨h5, hr⟩
    · refine ⟨c2, _, hc, hr, ?_⟩
      simp only [step, List.map_cons]
      rw [List.erase_of_not_mem hk, List.take_of_length_le]
      simp only [List.length_cons, List.length_map]
      omega
    · refine ⟨c2, _, hc, hr, ?_⟩
      simp only [step, List.map_cons]
      rw [List.erase_of_not_mem hk, List.map_dropLast, List.dropLast_eq_take,
        List.length_map, h5]
      rfl

theorem touches_rep (ks : List String) : ∀ (c : Cache) (es : List (String × Nat)),
    Rep c es → ∃ c2 es2, c.touches ks = some c2 ∧ Rep c2 es2 ∧
      es2.map Prod.fst = ks.foldl step (es.map Prod.fst) := by
  induction ks with
  | nil => intro c es h; exact ⟨c, es, rfl, h, rfl⟩
  | cons k ks ih =>
    intro c es h
    obtain ⟨c1, es1, hc, hr, he⟩ := Check_rep c es k h
    obtain ⟨c2, es2, hc2, hr2, he2⟩ := ih c1 es1 hr
    refine ⟨c2, es2, ?_, hr2, ?_⟩
    · simp [Cache.touches, hc, hc2]
    · rw [he2, he]; rfl

theorem run_rep (ks : List String) :
    ∃ c es, run ks = some c ∧ Rep c es ∧ es.map Prod.fst = ks.foldl step [] := by
  obtain ⟨c0, h0, hr0⟩ := NewCache_rep
  obtain ⟨c, es, hc, hr, he⟩ := touches_rep ks c0 [] hr0
  exact ⟨c, es, by simp [run, h0, hc], hr, he⟩

theorem Rep.resident_iff {c : Cache} {es : List (String × Nat)} (h : Rep c es)
    (k : String) : c.resident k = true ↔ k ∈ es.map Prod.fst := by
  have := mapGet_hashOf_none es k
  rw [← h.hash] at this
  rw [Cache.resident, Option.isSome_iff_ne_none, Ne, this, not_not]

theorem Rep.resident_false_iff {c : Cache} {es : List (String × Nat)} (h : Rep c es)
    (k : String) : c.resident k = false ↔ k ∉ es.map Prod.fst := by
  rw [← h.resident_iff k]; simp

theorem Rep.length_eq {c : Cache} {es : List (String × Nat)} (h : Rep c es) :
    c.Queue.Length = (es.length : Int) := h.chain.len

theorem Rep.mapKeys_eq {c : Cache} {es : List (String × Nat)} (h : Rep c es) :
    mapKeys c.Hash = es.map Prod.fst := by
  rw [h.hash]; simp [mapKeys, hashOf]

theorem Rep.mapLen_eq {c : Cache} {es : List (String × Nat)} (h : Rep c es) :
    mapLen c.Hash = es.length := by
  rw [h.hash]; simp [mapLen, hashOf]

/-! ## The claims -/

/-- C1 (capacity bound): after every touch of every finite sequence of keys
touched on a new cache (every prefix `ks.take n` of the sequence), the run
succeeds and `Queue.Length` is at most `SIZE`. -/
theorem capacity_bound (ks : List String) (n : Nat) :
    ∃ c, run (ks.take n) = some c ∧ c.Queue.Length ≤ SIZE := by
  obtain ⟨c, es, hc, hr, _⟩ := run_rep (ks.take n)
  refine ⟨c, hc, ?_⟩
  have := hr.cap
  rw [hr.length_eq, SIZE]
  omega

/-- C2 (size consistency): in every state reached from `NewCache` by `Check`
calls, `Queue.Length` is the number of nodes the traversal finds strictly
between the `Head` and `Tail` sentinels, and it is the number of keys of
`Hash` (whose keys are pairwise distinct, so that its length counts them). -/
theorem size_consistency (ks : List String) :
    ∃ c ns, run ks = some c ∧ c.nodes = some ns ∧
      c.Queue.Length = (ns.length : Int) ∧ mapLen c.Hash = ns.length ∧
      (mapKeys c.Hash).Nodup := by
  obtain ⟨c, es, hc, hr, _⟩ := run_rep ks
  refine ⟨c, es.map Prod.snd, hc, hr.chain.nodes_eq, ?_, ?_, ?_⟩
  · rw [hr.length_eq, List.length_map]
  · rw [hr.mapLen_eq, List.length_map]
  · rw [hr.mapKeys_eq]; exact hr.chain.nodupK

theorem rep_of_run {ks : List String} {c : Cache} (h : run ks = some c) :
    ∃ es, Rep c es ∧ es.map Prod.fst = ks.foldl step [] := by
  obtain ⟨c1, es, hc, hr, he⟩ := run_rep ks
  rw [h] at hc
  cases hc
  exact ⟨es, hr, he⟩

theorem Rep.Display_keys {c : Cache} {es : List (String × Nat)} (h : Rep c es) :
    c.Display = some (es.map Prod.fst) := h.chain.Display_eq

/-- C4 (hit): in a reachable state, touching a resident key `k` succeeds, the
new front-to-back key sequence is `k` followed by the old one with `k` erased,
the size is unchanged and every key is resident after the touch exactly when
it was resident before (nothing is evicted, at any size). -/
theorem hit_moves_to_front (ks : List String) (c : Cache) (k : String)
    (hrun : run ks = some c) (hk : c.resident k = true) :
    ∃ l c2, c.Display = some l ∧ c.Check k = some c2 ∧
      c2.Display = some (k :: l.erase k) ∧ c2.Queue.Length = c.Queue.Length ∧
      mapLen c2.Hash = mapLen c.Hash ∧ ∀ k2, c2.resident k2 = c.resident k2 := by
  obtain ⟨es, hr, _⟩ := rep_of_run hrun
  have hmem := (hr.resident_iff k).1 hk
  obtain ⟨e, he, rfl⟩ := List.mem_map.1 hmem
  obtain ⟨xs, ys, rfl⟩ := List.append_of_mem he
  have hnd := hr.chain.nodupK
  simp only [List.map_append, List.map_cons, List.nodup_append, List.nodup_cons,
    List.disjoint_cons_right] at hnd
  obtain ⟨c2, hc, hr2⟩ := Check_hit c xs ys e.1 e.2 hr
  refine ⟨_, c2, hr.Display_keys, hc, ?_, ?_, ?_, ?_⟩
  · rw [hr2.Display_keys]
    simp only [List.map_cons, List.map_append]
    rw [List.erase_append_right _ hnd.2.2.1, List.erase_cons_head]
  · rw [hr2.length_eq, hr.length_eq]
    simp only [List.length_cons, List.length_append]
    push_cast
    omega
  · rw [hr2.mapLen_eq, hr.mapLen_eq]
    simp only [List.length_cons, List.length_append]
    omega
  · intro k2
    rw [Bool.eq_iff_iff, hr2.resident_iff, hr.resident_iff]
    simp only [List.map_cons, List.map_append, List.mem_cons, List.mem_append]
    tauto

/-- Witness for C4: touching `a` again after `a`, `b`, `c`. -/
theorem hit_moves_to_front_witness :
    run ["a", "b", "c"] = some cacheABC ∧ cacheABC.resident "a" = true ∧
    ∃ l c2, cacheABC.Display = some l ∧ cacheABC.Check "a" = some c2 ∧
      c2.Display = some ("a" :: l.erase "a") ∧ c2.Queue.Length = cacheABC.Queue.Length ∧
      mapLen c2.Hash = mapLen cacheABC.Hash ∧
      ∀ k2, c2.resident k2 = cacheABC.resident k2 :=
  ⟨by decide, by decide,
    hit_moves_to_front ["a", "b", "c"] cacheABC "a" (by decide) (by decide)⟩

/-- C5 (miss on a full cache): in a reachable state of size `SIZE`, touching a
key `k` that is not resident succeeds, the new key sequence is `k` followed by
the old one without its last key, that last key is no longer resident nor in
the queue, every other key keeps its residency, and the size stays `SIZE`. -/
theorem miss_on_full_evicts_last (ks : List String) (c : Cache) (k : String)
    (hrun : run ks = some c) (hfull : c.Queue.Length = SIZE)
    (hk : c.resident k = false) :
    ∃ l lru c2, c.Display = some l ∧ l.getLast? = some lru ∧ c.Check k = some c2 ∧
      c2.Display = some (k :: l.dropLast) ∧ c2.Queue.Length = SIZE ∧
      mapLen c2.Hash = mapLen c.Hash ∧
      c.resident lru = true ∧ c2.resident lru = false ∧ lru ∉ k :: l.dropLast ∧
      c2.resident k = true ∧
      ∀ k2, k2 ≠ lru → k2 ≠ k → c2.resident k2 = c.resident k2 := by
  obtain ⟨es, hr, _⟩ := rep_of_run hrun
  have hnk := (hr.resident_false_iff k).1 hk
  have h5 : es.length = 5 := by
    have := hr.length_eq
    rw [hfull, SIZE] at this
    omega
  obtain ⟨c2, hc, hcase⟩ := Check_miss c es k hr hnk
  have hr2 : Rep c2 ((k, c.heap.length) :: es.dropLast) := by
    rcases hcase with ⟨hlt, _⟩ | ⟨_, h2⟩
    · omega
    · exact h2
  obtain ⟨xs, e, rfl⟩ : ∃ xs e, es = xs ++ [e] := by
    rcases List.eq_nil_or_concat es with h0 | ⟨xs, e, h0⟩
    · rw [h0] at h5; simp at h5
    · exact ⟨xs, e, by simpa using h0⟩
  have hnd := hr.chain.nodupK
  simp only [List.map_append, List.map_cons, List.map_nil, List.nodup_append,
    List.disjoint_cons_right] at hnd
  simp only [List.map_append, List.map_cons, List.map_nil, List.mem_append,
    List.mem_singleton, not_or] at hnk
  rw [List.dropLast_concat] at hr2
  have hdl : ((xs ++ [e]).map Prod.fst).dropLast = xs.map Prod.fst := by simp
  have hne : e.1 ≠ k := fun hh => hnk.2 hh.symm
  refine ⟨_, e.1, c2, hr.Display_keys, by simp, hc, ?_, ?_, ?_, ?_, ?_, ?_, ?_, ?_⟩
  · rw [hr2.Display_keys, hdl]; rfl
  · rw [hr2.length_eq, SIZE]
    simp only [List.length_append, List.length_cons, List.length_nil] at h5 ⊢
    push_cast
    omega
  · rw [hr2.mapLen_eq, hr.mapLen_eq]
    simp only [List.length_append, List.length_cons, List.length_nil]
  · rw [hr.resident_iff]; simp
  · rw [hr2.resident_false_iff]
    simp only [List.map_cons, List.mem_cons, not_or]
    exact ⟨hne, hnd.2.2.1⟩
  · rw [hdl]
    simp only [List.mem_cons, not_or]
    exact ⟨hne, hnd.2.2.1⟩
  · rw [hr2.resident_iff]; simp
  · intro k2 h1 h2
    rw [Bool.eq_iff_iff, hr2.resident_iff, hr.resident_iff]
    simp only [List.map_cons, List.map_append, List.map_nil, List.mem_cons,
      List.mem_append, List.not_mem_nil, or_false]
    tauto

/-- Witness for C5: touching `f` after `a`, `b`, `c`, `d`, `e`. -/
theorem miss_on_full_evicts_last_witness :
    run ["a", "b", "c", "d", "e"] = some cacheFull ∧ cacheFull.Queue.Length = SIZE ∧
    cacheFull.resident "f" = false ∧
    ∃ l lru c2, cacheFull.Display = some l ∧ l.getLast? = some lru ∧
      cacheFull.Check "f" = some c2 ∧
      c2.Display = some ("f" :: l.dropLast) ∧ c2.Queue.Length = SIZE ∧
      mapLen c2.Hash = mapLen cacheFull.Hash ∧
      cacheFull.resident lru = true ∧ c2.resident lru = false ∧
      lru ∉ "f" :: l.dropLast ∧ c2.resident "f" = true ∧
      ∀ k2, k2 ≠ lru → k2 ≠ "f" → c2.resident k2 = cacheFull.resident k2 :=
  ⟨by decide, by decide, by decide,
    miss_on_full_evicts_last ["a", "b", "c", "d", "e"] cacheFull "f"
      (by decide) (by decide) (by decide)⟩

/-- C6 (miss below capacity): in a reachable state of size below `SIZE`,
touching a key `k` that is not resident succeeds, the new key sequence is `k`
followed by the unchanged old one, the size grows by one, `Hash` maps `k` to
the freshly allocated node, and every resident key stays resident. -/
theorem miss_below_capacity (ks : List String) (c : Cache) (k : String)
    (hrun : run ks = some c) (hlt : c.Queue.Length < SIZE)
    (hk : c.resident k = false) :
    ∃ l c2, c.Display = some l ∧ c.Check k = some c2 ∧
      c2.Display = some (k :: l) ∧ c2.Queue.Length = c.Queue.Length + 1 ∧
      mapLen c2.Hash = mapLen c.Hash + 1 ∧
      c2.resident k = true ∧ mapGet c2.Hash k = some (some c.heap.length) ∧
      valAt c2.heap c.heap.length = k ∧
      ∀ k2, c.resident k2 = true → c2.resident k2 = true := by
  obtain ⟨es, hr, _⟩ := rep_of_run hrun
  have hnk := (hr.resident_false_iff k).1 hk
  have h5 : es.length < 5 := by
    have := hr.length_eq
    rw [this, SIZE] at hlt
    omega
  obtain ⟨c2, hc, hcase⟩ := Check_miss c es k hr hnk
  have hr2 : Rep c2 ((k, c.heap.length) :: es) := by
    rcases hcase with ⟨_, h2⟩ | ⟨h2, _⟩
    · exact h2
    · omega
  refine ⟨_, c2, hr.Display_keys, hc, ?_, ?_, ?_, ?_, ?_, ?_, ?_⟩
  · rw [hr2.Display_keys]; rfl
  · rw [hr2.length_eq, hr.length_eq]
    simp only [List.length_cons]
    push_cast
    rfl
  · rw [hr2.mapLen_eq, hr.mapLen_eq]; rfl
  · rw [hr2.resident_iff]; simp
  · rw [hr2.hash]
    exact mapGet_hashOf_mem _ k _ hr2.chain.nodupK (List.mem_cons_self _ _)
  · exact hr2.chain.val (k, c.heap.length) (List.mem_cons_self _ _)
  · intro k2 h2
    rw [hr.resident_iff] at h2
    rw [hr2.resident_iff]
    exact List.mem_cons_of_mem _ h2

/-- Witness for C6: touching `d` after `a`, `b`, `c`. -/
theorem miss_below_capacity_witness :
    run ["a", "b", "c"] = some cacheABC ∧ cacheABC.Queue.Length < SIZE ∧
    cacheABC.resident "d" = false ∧
    ∃ l c2, cacheABC.Display = some l ∧ cacheABC.Check "d" = some c2 ∧
      c2.Display = some ("d" :: l) ∧ c2.Queue.Length = cacheABC.Queue.Length + 1 ∧
      mapLen c2.Hash = mapLen cacheABC.Hash + 1 ∧
      c2.resident "d" = true ∧ mapGet c2.Hash "d" = some (some cacheABC.heap.length) ∧
      valAt c2.heap cacheABC.heap.length = "d" ∧
      ∀ k2, cacheABC.resident k2 = true → c2.resident k2 = true :=
  ⟨by decide, by decide, by decide,
    miss_below_capacity ["a", "b", "c"] cacheABC "d" (by decide) (by decide) (by decide)⟩

theorem Rep.countP_val {c : Cache} {es : List (String × Nat)} (h : Rep c es)
    (k : String) :
    (es.map Prod.snd).countP (fun a => valAt c.heap a = k) = (es.map Prod.fst).count k := by
  rw [List.countP_map, List.count, List.countP_map]
  apply List.countP_congr
  intro e he
  simp [h.chain.val e he]

/-- C7 (key index and queue agree): in every state reached from `NewCache` by
`Check` calls, a key is in `Hash` exactly when one and only one node of the
traversal carries it as `Val`, and the pointer stored in `Hash` for a key is a
node of the traversal whose `Val` is that key. -/
theorem index_bijection (ks : List String) :
    ∃ c ns, run ks = some c ∧ c.nodes = some ns ∧
      (∀ k, c.resident k = true ↔ ns.countP (fun a => valAt c.heap a = k) = 1) ∧
      (∀ k p, mapGet c.Hash k = some p →
        ∃ a, p = some a ∧ a ∈ ns ∧ valAt c.heap a = k) := by
  obtain ⟨c, es, hc, hr, _⟩ := run_rep ks
  refine ⟨c, es.map Prod.snd, hc, hr.chain.nodes_eq, ?_, ?_⟩
  · intro k
    rw [hr.resident_iff, hr.countP_val]
    constructor
    · intro hk
      exact List.count_eq_one_of_mem hr.chain.nodupK hk
    · intro h1
      by_contra hk
      rw [List.count_eq_zero_of_not_mem hk] at h1
      exact absurd h1 (by decide)
  · intro k p hp
    rw [hr.hash] at hp
    obtain ⟨a, ha, hm⟩ := mapGet_hashOf_some es k p hp
    exact ⟨a, ha, List.mem_map.2 ⟨(k, a), hm, rfl⟩, hr.chain.val (k, a) hm⟩

theorem Rep.head_right {c : Cache} {es : List (String × Nat)} {k : String} {a : Nat}
    (h : Rep c ((k, a) :: es)) :
    ∃ hd, load c.heap c.Queue.Head = some hd ∧ hd.Right = some a := by
  obtain ⟨hd, hld, _, hR, _⟩ := load_of_lt c.heap 0 (by have := h.chain.hlen; omega)
  have h1 : rightAt c.heap 0 = some (some a) := h.chain.linked.1
  rw [h1] at hR
  exact ⟨hd, by rw [h.chain.head]; exact hld, (Option.some.inj hR).symm⟩

/-- C8 (touch makes the key most recent): for every reachable state and every
key `k`, `Check k` succeeds, and afterwards `k` is resident, `k` is the first
key of the traversal, and the node right after the `Head` sentinel is the node
`Hash` stores for `k` and carries `k`. -/
theorem touch_makes_most_recent (ks : List String) (k : String) :
    ∃ c c2 l hd a, run ks = some c ∧ c.Check k = some c2 ∧
      c2.resident k = true ∧ c2.Display = some (k :: l) ∧
      load c2.heap c2.Queue.Head = some hd ∧ hd.Right = some a ∧
      mapGet c2.Hash k = some (some a) ∧ valAt c2.heap a = k := by
  obtain ⟨c, es, hc, hr, _⟩ := run_rep ks
  obtain ⟨c2, es2, hc2, hr2, he2⟩ := Check_rep c es k hr
  obtain ⟨e, rest, rfl⟩ : ∃ e rest, es2 = e :: rest := by
    cases es2 with
    | nil => simp [step] at he2
    | cons e rest => exact ⟨e, rest, rfl⟩
  obtain ⟨k1, a⟩ := e
  have hk1 : k1 = k := by
    simp only [step, List.map_cons, List.take_succ_cons, List.cons.injEq] at he2
    exact he2.1
  subst hk1
  obtain ⟨hd, hld, hR⟩ := hr2.head_right
  refine ⟨c, c2, rest.map Prod.fst, hd, a, hc, hc2, ?_, hr2.Display_keys, hld, hR, ?_, ?_⟩
  · rw [hr2.resident_iff]; simp
  · rw [hr2.hash]
    exact mapGet_hashOf_mem _ k1 a hr2.chain.nodupK (List.mem_cons_self _ _)
  · exact hr2.chain.val (k1, a) (List.mem_cons_self _ _)

theorem foldl_step_six (a b c d e f : String) (hnd : [a, b, c, d, e, f].Nodup) :
    [a, b, c, d, e, f].foldl step [] = [f, e, d, c, b] := by
  simp only [List.nodup_cons, List.mem_cons, List.mem_singleton, List.not_mem_nil,
    not_or, or_false, not_false_eq_true, List.nodup_nil, and_true] at hnd
  obtain ⟨⟨hab, hac, had, hae, haf⟩, ⟨hbc, hbd, hbe, hbf⟩, ⟨hcd, hce, hcf⟩,
    ⟨hde, hdf⟩, hef⟩ := hnd
  have e1 : step [] a = [a] := by simp [step]
  have e2 : step [a] b = [b, a] := by
    simp [step, List.erase_cons, hab]
  have e3 : step [b, a] c = [c, b, a] := by
    simp [step, List.erase_cons, hac, hbc]
  have e4 : step [c, b, a] d = [d, c, b, a] := by
    simp [step, List.erase_cons, had, hbd, hcd]
  have e5 : step [d, c, b, a] e = [e, d, c, b, a] := by
    simp [step, List.erase_cons, hae, hbe, hce, hde]
  have e6 : step [e, d, c, b, a] f = [f, e, d, c, b] := by
    simp [step, List.erase_cons, haf, hbf, hcf, hdf, hef]
  simp only [List.foldl, e1, e2, e3, e4, e5, e6]

/-- C9 (eviction correctness): touching `SIZE + 1` pairwise distinct keys on a
new cache succeeds and leaves a cache of size `SIZE` in which the first key
touched is not resident and every later key is resident. -/
theorem eviction_correctness (ks : List String)
    (hlen : (ks.length : Int) = SIZE + 1) (hnd : ks.Nodup) :
    ∃ c, run ks = some c ∧ c.Queue.Length = SIZE ∧
      (∀ k1 ∈ ks.head?, c.resident k1 = false) ∧
      ∀ k ∈ ks.tail, c.resident k = true := by
  obtain ⟨c, es, hc, hr, he⟩ := run_rep ks
  have h6 : ks.length = 6 := by
    rw [SIZE] at hlen; omega
  match ks, h6 with
  | [a, b, c1, d, e, f], _ =>
    rw [foldl_step_six a b c1 d e f hnd] at he
    have hl : es.length = 5 := by
      have := congrArg List.length he
      simpa using this
    simp only [List.nodup_cons, List.mem_cons, List.mem_singleton, List.not_mem_nil,
      not_or, or_false] at hnd
    refine ⟨c, hc, ?_, ?_, ?_⟩
    · rw [hr.length_eq, hl]; rfl
    · intro k1 hk1
      simp only [List.head?_cons, Option.mem_def, Option.some.injEq] at hk1
      subst hk1
      rw [hr.resident_false_iff, he]
      simp only [List.mem_cons, List.mem_singleton, List.not_mem_nil, not_or, or_false]
      obtain ⟨⟨hab, hac, had, hae, haf⟩, _⟩ := hnd
      exact ⟨haf, hae, had, hac, hab⟩
    · intro k hk
      rw [hr.resident_iff, he]
      simp only [List.tail_cons, List.mem_cons, List.mem_singleton, List.not_mem_nil,
        or_false] at hk ⊢
      tauto

/-- Witness for C9: the six keys `a` to `f`. -/
theorem eviction_correctness_witness :
    (([("a" : String), "b", "c", "d", "e", "f"].length : Int) = SIZE + 1) ∧
    [("a" : String), "b", "c", "d", "e", "f"].Nodup ∧
    ∃ c, run ["a", "b", "c", "d", "e", "f"] = some c ∧ c.Queue.Length = SIZE ∧
      (∀ k1 ∈ ["a", "b", "c", "d", "e", "f"].head?, c.resident k1 = false) ∧
      ∀ k ∈ ["a", "b", "c", "d", "e", "f"].tail, c.resident k = true :=
  ⟨by decide, by decide,
    eviction_correctness ["a", "b", "c", "d", "e", "f"] (by decide) (by decide)⟩

/-- C10 (end-to-end scenario of `main`): touching cow, buffalo, deer, buffalo,
tiger on a new cache gives the key sequences below after each touch and the
final size 4; nothing is evicted: after each touch every key touched so far is
resident. -/
theorem end_to_end_scenario :
    (run ["cow"]).bind Cache.Display = some ["cow"] ∧
    (run ["cow", "buffalo"]).bind Cache.Display = some ["buffalo", "cow"] ∧
    (run ["cow", "buffalo", "deer"]).bind Cache.Display
      = some ["deer", "buffalo", "cow"] ∧
    (run ["cow", "buffalo", "deer", "buffalo"]).bind Cache.Display
      = some ["buffalo", "deer", "cow"] ∧
    (run ["cow", "buffalo", "deer", "buffalo", "tiger"]).bind Cache.Display
      = some ["tiger", "buffalo", "deer", "cow"] ∧
    (run ["cow", "buffalo", "deer", "buffalo", "tiger"]).map (fun c => c.Queue.Length)
      = some 4 ∧
    ∀ n, n ≤ 5 → ∀ k ∈ ["cow", "buffalo", "deer", "buffalo", "tiger"].take n,
      (run (["cow", "buffalo", "deer", "buffalo", "tiger"].take n)).map
        (fun c => c.resident k) = some true := by
  decide

/-! ## Recency order of the list model -/

theorem pair_sublist_or (A B : String) (hne : A ≠ B) : ∀ l : List String,
    A ∈ l → B ∈ l → [A, B].Sublist l ∨ [B, A].Sublist l
  | [], hA, _ => by simp at hA
  | z :: t, hA, hB => by
    rcases List.mem_cons.1 hA with rfl | hA1
    · rcases List.mem_cons.1 hB with rfl | hB1
      · exact absurd rfl hne
      · exact Or.inl ((List.singleton_sublist.2 hB1).cons₂ _)
    · rcases List.mem_cons.1 hB with rfl | hB1
      · exact Or.inr ((List.singleton_sublist.2 hA1).cons₂ _)
      · rcases pair_sublist_or A B hne t hA1 hB1 with h | h
        · exact Or.inl (h.cons _)
        · exact Or.inr (h.cons _)

theorem indexOf_lt_of_pair_sublist (X Y : String) : ∀ l : List String,
    l.Nodup → [X, Y].Sublist l → l.indexOf X < l.indexOf Y
  | [], _, h => by simp at h
  | z :: t, hnd, h => by
    rw [List.nodup_cons] at hnd
    rcases List.sublist_cons_iff.1 h with h1 | ⟨r, hr, h1⟩
    · have hX : X ∈ t := h1.subset (by simp)
      have hY : Y ∈ t := h1.subset (by simp)
      have hzX : z ≠ X := fun hh => hnd.1 (hh ▸ hX)
      have hzY : z ≠ Y := fun hh => hnd.1 (hh ▸ hY)
      rw [List.indexOf_cons_ne _ hzX, List.indexOf_cons_ne _ hzY]
      exact Nat.succ_lt_succ (indexOf_lt_of_pair_sublist X Y t hnd.2 h1)
    · simp only [List.cons.injEq] at hr
      obtain ⟨rfl, rfl⟩ := hr
      have hY : Y ∈ t := List.singleton_sublist.1 h1
      have hzY : X ≠ Y := fun hh => hnd.1 (hh ▸ hY)
      rw [List.indexOf_cons_self, List.indexOf_cons_ne _ hzY]
      exact Nat.succ_pos _

theorem step_nodup (l : List String) (k : String) (h : l.Nodup) : (step l k).Nodup := by
  refine List.Nodup.sublist (List.take_sublist _ _) ?_
  rw [List.nodup_cons]
  exact ⟨fun hh => ((h.mem_erase_iff).1 hh).1 rfl, h.erase k⟩

theorem foldl_step_nodup (ks : List String) : ∀ l : List String, l.Nodup →
    (ks.foldl step l).Nodup := by
  induction ks with
  | nil => intro l h; exact h
  | cons k ks ih => intro l h; exact ih _ (step_nodup l k h)

theorem mem_of_mem_step {l : List String} {k x : String} (hx : x ∈ step l k)
    (hne : x ≠ k) : x ∈ l := by
  have h1 := List.mem_of_mem_take hx
  rcases List.mem_cons.1 h1 with h2 | h2
  · exact absurd h2 hne
  · exact List.mem_of_mem_erase h2

theorem recency_model (ks : List String) : ∀ (A B : String) (i j : Nat),
    ks[i]? = some A → A ∉ ks.drop (i + 1) → ks[j]? = some B → B ∉ ks.drop (j + 1) →
    i < j → A ∈ ks.foldl step [] → B ∈ ks.foldl step [] →
    [B, A].Sublist (ks.foldl step []) := by
  induction ks using List.reverseRecOn with
  | nil => intro A B i j hA; simp at hA
  | append_singleton ks k ih =>
    intro A B i j hA hAl hB hBl hij hAm hBm
    rw [List.foldl_append] at hAm hBm ⊢
    simp only [List.foldl_cons, List.foldl_nil] at hAm hBm ⊢
    have hnd : (ks.foldl step []).Nodup := foldl_step_nodup ks [] List.nodup_nil
    have hjlt : j < ks.length + 1 := by
      have := (List.getElem?_eq_some_iff.1 hB).1
      simpa using this
    have hAk : A ≠ k := by
      intro hh
      apply hAl
      rw [List.drop_append_of_le_length (by omega), hh]
      simp
    have hiA : ks[i]? = some A := by
      rw [List.getElem?_append_left (by omega)] at hA; exact hA
    have hAl1 : A ∉ ks.drop (i + 1) := by
      intro hh
      apply hAl
      rw [List.drop_append_of_le_length (by omega)]
      exact List.mem_append_left _ hh
    have hAB : A ≠ B := by
      intro hh
      apply hAl
      rw [hh]
      refine (List.mem_iff_getElem?).2 ⟨j - (i + 1), ?_⟩
      rw [List.getElem?_drop, ← hB]
      congr 1
      omega
    by_cases hBk : B = k
    · subst hBk
      have hA1 : A ∈ (List.erase (ks.foldl step []) B).take 4 := by
        simp only [step, List.take_succ_cons, List.mem_cons] at hAm
        rcases hAm with h | h
        · exact absurd h hAk
        · exact h
      simp only [step, List.take_succ_cons]
      exact (List.singleton_sublist.2 hA1).cons₂ _
    · have hjlt1 : j < ks.length := by
        rcases Nat.lt_or_ge j ks.length with h | h
        · exact h
        · exfalso
          have hj : j = ks.length := by omega
          rw [hj, List.getElem?_concat_length] at hB
          exact hBk (Option.some.inj hB).symm
      have hjB : ks[j]? = some B := by
        rw [List.getElem?_append_left hjlt1] at hB; exact hB
      have hBl1 : B ∉ ks.drop (j + 1) := by
        intro hh
        apply hBl
        rw [List.drop_append_of_le_length (by omega)]
        exact List.mem_append_left _ hh
      have hAm1 := mem_of_mem_step hAm hAk
      have hBm1 := mem_of_mem_step hBm hBk
      have hsub := ih A B i j hiA hAl1 hjB hBl1 hij hAm1 hBm1
      rcases pair_sublist_or B A (Ne.symm hAB) _ hBm hAm with h | h
      · exact h
      · exfalso
        have h1 : [A, B].Sublist (k :: List.erase (ks.foldl step []) k) :=
          h.trans (List.take_sublist _ _)
        have h2 : [A, B].Sublist (List.erase (ks.foldl step []) k) := by
          rcases List.sublist_cons_iff.1 h1 with h3 | ⟨r, hr, _⟩
          · exact h3
          · simp only [List.cons.injEq] at hr
            exact absurd hr.1 hAk
        have h3 : [A, B].Sublist (ks.foldl step []) := h2.trans (List.erase_sublist _ _)
        have h4 := indexOf_lt_of_pair_sublist A B _ hnd h3
        have h5 := indexOf_lt_of_pair_sublist B A _ hnd hsub
        omega

/-- C3 (recency order): in the state reached by touching `ks` on a new cache,
if `A` was last touched at position `i`, `B` was last touched at position `j`,
`i < j`, and both keys are resident, then `A` occurs in the front-to-back key
sequence strictly after `B`. -/
theorem recency_order (ks : List String) (c : Cache) (A B : String) (i j : Nat)
    (hrun : run ks = some c)
    (hA : ks[i]? = some A) (hAlast : A ∉ ks.drop (i + 1))
    (hB : ks[j]? = some B) (hBlast : B ∉ ks.drop (j + 1)) (hij : i < j)
    (hAres : c.resident A = true) (hBres : c.resident B = true) :
    ∃ l, c.Display = some l ∧ l.indexOf B < l.indexOf A ∧ l.indexOf A < l.length := by
  obtain ⟨es, hr, he⟩ := rep_of_run hrun
  rw [hr.resident_iff, he] at hAres hBres
  refine ⟨_, hr.Display_keys, ?_, ?_⟩
  · rw [he]
    exact indexOf_lt_of_pair_sublist B A _ (foldl_step_nodup ks [] List.nodup_nil)
      (recency_model ks A B i j hA hAlast hB hBlast hij hAres hBres)
  · rw [he]
    exact List.indexOf_lt_length.2 hAres

/-- Witness for C3: after `a`, `b`, `c` the key `a` (last touched at position 0)
comes after the key `c` (last touched at position 2). -/
theorem recency_order_witness :
    run ["a", "b", "c"] = some cacheABC ∧
    ["a", "b", "c"][0]? = some "a" ∧ "a" ∉ ["a", "b", "c"].drop (0 + 1) ∧
    ["a", "b", "c"][2]? = some "c" ∧ "c" ∉ ["a", "b", "c"].drop (2 + 1) ∧ 0 < 2 ∧
    cacheABC.resident "a" = true ∧ cacheABC.resident "c" = true ∧
    ∃ l, cacheABC.Display = some l ∧ l.indexOf "c" < l.indexOf "a" ∧
      l.indexOf "a" < l.length :=
  ⟨by decide, by decide, by decide, by decide, by decide, by decide, by decide, by decide,
    recency_order ["a", "b", "c"] cacheABC "a" "c" 0 2 (by decide) (by decide) (by decide)
      (by decide) (by decide) (by decide) (by decide) (by decide)⟩

/-! ## Further invariants of the reachable states -/

/-- C11 (no duplicates): in every state reached from `NewCache` by `Check`
calls, whatever keys were touched and however often, the front-to-back key
sequence of the queue has no key twice. -/
theorem no_duplicate_keys (ks : List String) :
    ∃ c l, run ks = some c ∧ c.Display = some l ∧ l.Nodup := by
  obtain ⟨c, es, hc, hr, _⟩ := run_rep ks
  exact ⟨c, _, hc, hr.Display_keys, hr.chain.nodupK⟩

/-- C12 (touch is total): in every state reached from `NewCache` by `Check`
calls, `Check` returns a cache for every key, the empty string included: no
pointer dereferenced in `Remove` or `Add` is nil, on a hit as on a miss. -/
theorem touch_total (ks : List String) (key : String) :
    ∃ c c2 c3, run ks = some c ∧ c.Check key = some c2 ∧ c.Check "" = some c3 := by
  obtain ⟨c, es, hc, hr, _⟩ := run_rep ks
  obtain ⟨c2, _, hc2, _, _⟩ := Check_rep c es key hr
  obtain ⟨c3, _, hc3, _, _⟩ := Check_rep c es "" hr
  exact ⟨c, c2, c3, hc, hc2, hc3⟩

/-- C13 (construction yields an empty cache): `NewCache` returns a cache of
`Length` 0 with an empty `Hash` and an empty traversal, in which `Head.Right`
is `Tail` and `Tail.Left` is `Head`, and no key is resident. -/
theorem NewCache_empty :
    ∃ c hd tl, NewCache = some c ∧ c.Queue.Length = 0 ∧ c.Hash = [] ∧
      mapLen c.Hash = 0 ∧ c.Display = some [] ∧ c.nodes = some [] ∧
      load c.heap c.Queue.Head = some hd ∧ hd.Right = c.Queue.Tail ∧
      load c.heap c.Queue.Tail = some tl ∧ tl.Left = c.Queue.Head ∧
      c.Queue.Head ≠ c.Queue.Tail ∧ ∀ k, c.resident k = false :=
  ⟨_, _, _, rfl, rfl, rfl, rfl, by decide, by decide, rfl, rfl, rfl, rfl, by decide,
    fun _ => rfl⟩

/-! ## The list model and the touch history -/

theorem take_erase_take (k : String) : ∀ (R : List String) (n : Nat),
    ((R.take (n + 1)).erase k).take n = (R.erase k).take n
  | [], n => by simp
  | x :: t, 0 => by simp
  | x :: t, m + 1 => by
    by_cases hx : x = k
    · subst hx
      simp only [List.take_succ_cons, List.erase_cons_head]
      rw [List.take_take, Nat.min_self]
    · have hb : (x == k) = false := by simpa using hx
      rw [List.take_succ_cons, List.erase_cons, List.erase_cons, hb]
      simp only [Bool.false_eq_true, if_false, List.take_succ_cons]
      rw [take_erase_take k t m]

theorem recent_nodup : ∀ hs : List String, (recent hs).Nodup
  | [] => List.nodup_nil
  | k :: hs => by
    rw [recent, List.nodup_cons]
    refine ⟨?_, (recent_nodup hs).filter _⟩
    intro hk
    have := (List.mem_filter.1 hk).2
    simp at this

theorem foldl_step_eq_recent (ks : List String) :
    ks.foldl step [] = (recent ks.reverse).take 5 := by
  induction ks using List.reverseRecOn with
  | nil => rfl
  | append_singleton ks k ih =>
    rw [List.foldl_append, List.reverse_append]
    simp only [List.foldl_cons, List.foldl_nil, List.reverse_cons, List.reverse_nil,
      List.nil_append, List.singleton_append, recent]
    rw [ih, step, List.take_succ_cons, List.take_succ_cons, take_erase_take,
      (recent_nodup ks.reverse).erase_eq_filter]
    congr 2
    apply List.filter_congr
    intro x _
    by_cases hx : x = k <;> simp [hx]

/-- C18 (equivalence with a list model): for every sequence of touches on a
new cache the run succeeds and the front-to-back key sequence is the fold of
`l, k ↦ take SIZE (k :: erase k l)` over the touches from the empty list; this
is the first `SIZE` distinct keys of the history read from latest to earliest. -/
theorem list_model_refinement (ks : List String) :
    ∃ c, run ks = some c ∧
      c.Display = some (ks.foldl (fun l k => (k :: l.erase k).take SIZE.toNat) []) ∧
      c.Display = some ((recent ks.reverse).take SIZE.toNat) := by
  obtain ⟨c, es, hc, hr, he⟩ := run_rep ks
  have h1 : (fun (l : List String) (k : String) => (k :: l.erase k).take SIZE.toNat) = step := rfl
  have h2 : SIZE.toNat = 5 := rfl
  refine ⟨c, hc, ?_, ?_⟩
  · rw [h1, hr.Display_keys, he]
  · rw [h2, hr.Display_keys, he, foldl_step_eq_recent]

/-- C20 (touch is idempotent): in every reachable state and for every key,
a second `Check` of the same key right after the first succeeds and leaves the
front-to-back key sequence, the size and the set of keys of `Hash` as the
first `Check` left them. -/
theorem touch_idempotent (ks : List String) (k : String) :
    ∃ c c1 c2 l, run ks = some c ∧ c.Check k = some c1 ∧ c1.Check k = some c2 ∧
      c1.Display = some l ∧ c2.Display = some l ∧
      c2.Queue.Length = c1.Queue.Length ∧ mapLen c2.Hash = mapLen c1.Hash ∧
      ∀ k2, c2.resident k2 = c1.resident k2 := by
  obtain ⟨c, es, hc, hr, _⟩ := run_rep ks
  obtain ⟨c1, es1, hc1, hr1, he1⟩ := Check_rep c es k hr
  obtain ⟨e, rest, rfl⟩ : ∃ e rest, es1 = e :: rest := by
    cases es1 with
    | nil => simp [step] at he1
    | cons e rest => exact ⟨e, rest, rfl⟩
  obtain ⟨k1, a⟩ := e
  have hk1 : k1 = k := by
    simp only [step, List.map_cons, List.take_succ_cons, List.cons.injEq] at he1
    exact he1.1
  subst hk1
  obtain ⟨c2, hc2, hr2⟩ := Check_hit c1 [] rest k1 a hr1
  rw [List.nil_append] at hr2
  refine ⟨c, c1, c2, _, hc, hc1, hc2, hr1.Display_keys, hr2.Display_keys, ?_, ?_, ?_⟩
  · rw [hr2.length_eq, hr1.length_eq]
  · rw [hr2.mapLen_eq, hr1.mapLen_eq]
  · intro k2
    rw [Bool.eq_iff_iff, hr2.resident_iff, hr1.resident_iff]

/-! ## Fuel of the traversal, and the backward traversal -/

theorem walk_short (m : Heap) (t : Nat) : ∀ (es : List (String × Nat)) (p fuel : Nat),
    Linked m (p :: es.map Prod.snd ++ [t]) → t ∉ es.map Prod.snd →
    (∀ e ∈ es, e.2 < m.length) → fuel ≤ es.length →
    ∃ q, rightAt m p = some q ∧ walk m (some t) fuel q = none
  | [], p, fuel, h, _, _, hf => by
    obtain ⟨h1, _⟩ := h
    have h0 : fuel = 0 := by simpa using hf
    subst h0
    exact ⟨some t, h1, rfl⟩
  | e :: es, p, 0, h, _, _, _ => ⟨some e.2, h.1, rfl⟩
  | e :: es, p, f + 1, h, ht, hb, hf => by
    obtain ⟨h1, _, h3⟩ := h
    refine ⟨some e.2, h1, ?_⟩
    simp only [List.map_cons, List.mem_cons, not_or] at ht
    obtain ⟨q, hq, hw⟩ := walk_short m t es e.2 f h3 ht.2
      (fun x hx => hb x (List.mem_cons_of_mem _ hx)) (by simp at hf; omega)
    obtain ⟨nd, hld, _, hR, _⟩ := load_of_lt m e.2 (hb e (List.mem_cons_self _ _))
    have hne : (some e.2 : Ptr) ≠ some t := by
      intro hh; exact ht.1 (Option.some.inj hh).symm
    have hR1 : nd.Right = q := by
      rw [hq] at hR; exact (Option.some.inj hR).symm
    simp [walk, hne, hld, hR1, hw]

theorem Chain.tail_not_mem {c : Cache} {es : List (String × Nat)} (h : Chain c es) :
    (1 : Nat) ∉ es.map Prod.snd := by
  intro hh
  obtain ⟨e, he, he1⟩ := List.mem_map.1 hh
  have := (h.bound e he).1
  omega

theorem Chain.head_not_mem {c : Cache} {es : List (String × Nat)} (h : Chain c es) :
    (0 : Nat) ∉ es.map Prod.snd := by
  intro hh
  obtain ⟨e, he, he1⟩ := List.mem_map.1 hh
  have := (h.bound e he).1
  omega

theorem Chain.traverse_fuel {c : Cache} {es : List (String × Nat)} (h : Chain c es)
    (fuel : Nat) :
    c.Queue.traverse c.heap fuel =
      if es.length < fuel then some (es.map (fun e => (e.2, e.1))) else none := by
  obtain ⟨nd, hld, _, hR, _⟩ := load_of_lt c.heap 0 (by have := h.hlen; omega)
  by_cases hf : es.length < fuel
  · obtain ⟨q, hq, hw⟩ := walk_linked c.heap 1 es 0 fuel h.linked h.tail_not_mem
      (fun e he => ⟨(h.bound e he).2, h.val e he⟩) hf
    have hR1 : nd.Right = q := by
      rw [hq] at hR; exact (Option.some.inj hR).symm
    simp [Queue.traverse, h.head, h.tail, hld, hR1, hw, hf]
  · obtain ⟨q, hq, hw⟩ := walk_short c.heap 1 es 0 fuel h.linked h.tail_not_mem
      (fun e he => (h.bound e he).2) (by omega)
    have hR1 : nd.Right = q := by
      rw [hq] at hR; exact (Option.some.inj hR).symm
    simp [Queue.traverse, h.head, h.tail, hld, hR1, hw, hf]

/-- C17 (the traversal is finite): in every state reached from `NewCache` by
`Check` calls, the loop of `Queue.Display` reaches `Tail` after exactly
`Queue.Length` nodes: it returns, with `Queue.Length` keys, as soon as it is
allowed more than `Queue.Length` loop tests, and not with fewer. -/
theorem traversal_finite (ks : List String) :
    ∃ c l ns, run ks = some c ∧ (l.length : Int) = c.Queue.Length ∧
      (ns.length : Int) = c.Queue.Length ∧
      (∀ fuel : Nat, c.Queue.Length < (fuel : Int) →
        c.Queue.Display c.heap fuel = some l ∧ c.Queue.nodes c.heap fuel = some ns) ∧
      (∀ fuel : Nat, (fuel : Int) ≤ c.Queue.Length →
        c.Queue.Display c.heap fuel = none) ∧
      c.Display = some l := by
  obtain ⟨c, es, hc, hr, _⟩ := run_rep ks
  have hL := hr.length_eq
  refine ⟨c, es.map Prod.fst, es.map Prod.snd, hc, ?_, ?_, ?_, ?_, hr.Display_keys⟩
  · rw [hL, List.length_map]
  · rw [hL, List.length_map]
  · intro fuel hf
    have hf1 : es.length < fuel := by rw [hL] at hf; omega
    simp [Queue.Display, Queue.nodes, hr.chain.traverse_fuel fuel, hf1]
  · intro fuel hf
    have hf1 : ¬ es.length < fuel := by rw [hL] at hf; omega
    simp [Queue.Display, hr.chain.traverse_fuel fuel, hf1]

theorem walkLeft_linked (m : Heap) (h0 : Nat) (es : List (String × Nat)) :
    ∀ (t fuel : Nat), Linked m (h0 :: es.map Prod.snd ++ [t]) → h0 ∉ es.map Prod.snd →
    (∀ e ∈ es, e.2 < m.length) → es.length < fuel →
    ∃ q, leftAt m t = some q ∧
      walkLeft m (some h0) fuel q = some (es.map Prod.snd).reverse := by
  induction es using List.reverseRecOn with
  | nil =>
    intro t fuel h _ _ hf
    obtain ⟨_, h2, _⟩ := h
    refine ⟨some h0, h2, ?_⟩
    obtain ⟨f, rfl⟩ : ∃ f, fuel = f + 1 := ⟨fuel - 1, by simp at hf; omega⟩
    simp [walkLeft]
  | append_singleton es e ih =>
    intro t fuel h hh hb hf
    have hfull : h0 :: (es ++ [e]).map Prod.snd ++ [t]
        = (h0 :: es.map Prod.snd) ++ e.2 :: [t] := by simp
    rw [hfull] at h
    obtain ⟨h1, _, h2, _⟩ := (Linked_append m e.2 [t] _).1 h
    refine ⟨some e.2, h2, ?_⟩
    obtain ⟨f, rfl⟩ : ∃ f, fuel = f + 1 := ⟨fuel - 1, by simp at hf; omega⟩
    simp only [List.map_append, List.map_cons, List.map_nil, List.mem_append,
      List.mem_singleton, not_or] at hh
    obtain ⟨q, hq, hw⟩ := ih e.2 f h1 hh.1
      (fun x hx => hb x (List.mem_append_left _ hx)) (by simp at hf; omega)
    obtain ⟨nd, hld, hL, _, _⟩ := load_of_lt m e.2 (hb e (by simp))
    have hne : (some e.2 : Ptr) ≠ some h0 := by
      intro hx; exact hh.2 (Option.some.inj hx).symm
    have hL1 : nd.Left = q := by
      rw [hq] at hL; exact (Option.some.inj hL).symm
    simp [walkLeft, hne, hld, hL1, hw]

theorem Chain.nodesBack_eq {c : Cache} {es : List (String × Nat)} (h : Chain c es) :
    c.nodesBack = some (es.map Prod.snd).reverse := by
  obtain ⟨q, hq, hw⟩ := walkLeft_linked c.heap 0 es 1 c.heap.length h.linked
    h.head_not_mem (fun e he => (h.bound e he).2) h.length_lt
  obtain ⟨nd, hld, hL, _, _⟩ := load_of_lt c.heap 1 (by have := h.hlen; omega)
  have hL1 : nd.Left = q := by
    rw [hq] at hL; exact (Option.some.inj hL).symm
  simp [Cache.nodesBack, Queue.nodesBack, h.head, h.tail, hld, hL1, hw]

theorem Linked_inverse (m : Heap) : ∀ xs : List Nat, Linked m xs →
    ∀ a ∈ xs.dropLast, ∃ b, rightAt m a = some (some b) ∧ leftAt m b = some (some a)
  | [], _, a, ha => by simp at ha
  | [_], _, a, ha => by simp at ha
  | x :: y :: rest, h, a, ha => by
    obtain ⟨h1, h2, h3⟩ := h
    simp only [List.dropLast_cons₂, List.mem_cons] at ha
    rcases ha with rfl | ha
    · exact ⟨y, h1, h2⟩
    · exact Linked_inverse m (y :: rest) h3 a ha

theorem load_of_rightAt {m : Heap} {a : Nat} {p : Ptr} (h : rightAt m a = some p) :
    ∃ nd, load m (some a) = some nd ∧ nd.Right = p := by
  simp only [rightAt, Option.map_eq_some'] at h
  obtain ⟨nd, h1, h2⟩ := h
  exact ⟨nd, h1, h2⟩

theorem load_of_leftAt {m : Heap} {a : Nat} {p : Ptr} (h : leftAt m a = some p) :
    ∃ nd, load m (some a) = some nd ∧ nd.Left = p := by
  simp only [leftAt, Option.map_eq_some'] at h
  obtain ⟨nd, h1, h2⟩ := h
  exact ⟨nd, h1, h2⟩

theorem Chain.tail_left {c : Cache} {xs : List (String × Nat)} {e : String × Nat}
    (h : Chain c (xs ++ [e])) :
    ∃ tl, load c.heap c.Queue.Tail = some tl ∧ tl.Left = some e.2 := by
  have hlk := h.linked
  have hfull : 0 :: (xs ++ [e]).map Prod.snd ++ [1]
      = (0 :: xs.map Prod.snd) ++ e.2 :: [1] := by simp
  rw [hfull] at hlk
  obtain ⟨_, _, hLt, _⟩ := (Linked_append _ e.2 [1] _).1 hlk
  rw [h.tail]
  exact load_of_leftAt hLt

/-- C19 (doubly linked well-formedness): in every state reached from `NewCache`
by `Check` calls, every node `n` from `Head` up to the last live node has
`n.Right.Left = n`; the traversal from `Tail` through `Left` links is the
reverse of the traversal from `Head` through `Right` links; and when the cache
is not empty `Tail.Left` is the last node of the front-to-back order, carrying
its last key. -/
theorem doubly_linked (ks : List String) :
    ∃ c ns l, run ks = some c ∧ c.nodes = some ns ∧ c.Display = some l ∧
      c.nodesBack = some ns.reverse ∧
      (∀ n ∈ c.Queue.Head :: ns.map some, ∃ nd r nd2,
        load c.heap n = some nd ∧ nd.Right = some r ∧
        load c.heap (some r) = some nd2 ∧ nd2.Left = n) ∧
      (ns ≠ [] → ∃ tl a, load c.heap c.Queue.Tail = some tl ∧ tl.Left = some a ∧
        ns.getLast? = some a ∧ l.getLast? = some (valAt c.heap a)) := by
  obtain ⟨c, es, hc, hr, _⟩ := run_rep ks
  have hch := hr.chain
  refine ⟨c, es.map Prod.snd, es.map Prod.fst, hc, hch.nodes_eq, hr.Display_keys,
    hch.nodesBack_eq, ?_, ?_⟩
  · intro n hn
    have hn1 : ∃ a, n = some a ∧ a ∈ (0 :: es.map Prod.snd ++ [1]).dropLast := by
      have hdl : (0 :: es.map Prod.snd ++ [1]).dropLast = 0 :: es.map Prod.snd := by
        exact List.dropLast_concat
      rw [hdl]
      rcases List.mem_cons.1 hn with h1 | h1
      · exact ⟨0, by rw [h1, hch.head], List.mem_cons_self _ _⟩
      · obtain ⟨a, ha, rfl⟩ := List.mem_map.1 h1
        exact ⟨a, rfl, List.mem_cons_of_mem _ ha⟩
    obtain ⟨a, rfl, ha⟩ := hn1
    obtain ⟨b, hR, hL⟩ := Linked_inverse c.heap _ hch.linked a ha
    obtain ⟨nd, hld, hndR⟩ := load_of_rightAt hR
    obtain ⟨nd2, hld2, hndL⟩ := load_of_leftAt hL
    exact ⟨nd, b, nd2, hld, hndR, hld2, hndL⟩
  · intro hne
    obtain ⟨xs, e, rfl⟩ : ∃ xs e, es = xs ++ [e] := by
      rcases List.eq_nil_or_concat es with h0 | ⟨xs, e, h0⟩
      · rw [h0] at hne; simp at hne
      · exact ⟨xs, e, by simpa using h0⟩
    obtain ⟨tl, hld, hL⟩ := hch.tail_left
    refine ⟨tl, e.2, hld, hL, by simp, ?_⟩
    rw [hch.val e (by simp)]
    simp

/-! ## The two halves of `Add` -/

theorem Add_eq_link_evict (c : Cache) (n : Ptr) :
    c.Add n = (c.AddLink n).bind Cache.AddEvict := by
  unfold Cache.Add Cache.AddLink
  cases load c.heap c.Queue.Head with
  | none => rfl
  | some hd =>
    dsimp only
    cases storeRight c.heap c.Queue.Head n with
    | none => rfl
    | some m1 =>
      dsimp only
      cases storeLeft m1 n c.Queue.Head with
      | none => rfl
      | some m2 =>
        dsimp only
        cases storeRight m2 n hd.Right with
        | none => rfl
        | some m3 =>
          dsimp only
          cases storeLeft m3 hd.Right n with
          | none => rfl
          | some m4 => rfl

theorem AddLink_spec (c : Cache) (es : List (String × Nat)) (k : String) (a : Nat)
    (h : Chain c es) (ha : 2 ≤ a ∧ a < c.heap.length) (hna : a ∉ es.map Prod.snd)
    (hnk : k ∉ es.map Prod.fst) (hv : valAt c.heap a = k) :
    ∃ c1, c.AddLink (some a) = some c1 ∧ Chain c1 ((k, a) :: es) ∧ c1.Hash = c.Hash := by
  obtain ⟨hd, m1, m2, m3, m4, hld, hs1, hs2, hs3, hs4, _, _, hch⟩ :=
    Add_link c es k a h ha hna hnk hv
  refine ⟨_, ?_, hch, rfl⟩
  simp [Cache.AddLink, h.head, hld, hs1, hs2, hs3, hs4]

theorem hit_link (c : Cache) (xs ys : List (String × Nat)) (k : String) (a : Nat)
    (h : Chain c (xs ++ (k, a) :: ys)) :
    ∃ c1 c2, c.Remove (some a) = some (c1, some a) ∧ Chain c1 (xs ++ ys) ∧
      c1.Hash = mapDelete c.Hash k ∧
      c1.AddLink (some a) = some c2 ∧ Chain c2 ((k, a) :: (xs ++ ys)) := by
  obtain ⟨c1, hrem, hch1, hh1, hlen1, hval1⟩ := Remove_spec c xs ys (k, a) h
  have hndK := h.nodupK
  have hndA := h.nodupA
  simp only [List.map_append, List.map_cons, List.nodup_append, List.nodup_cons,
    List.disjoint_cons_right] at hndK hndA
  have hb := h.bound (k, a) (by simp)
  obtain ⟨c2, hlink, hch2, _⟩ := AddLink_spec c1 (xs ++ ys) k a hch1
    ⟨hb.1, by rw [hlen1]; exact hb.2⟩
    (by simp only [List.map_append, List.mem_append, not_or]
        exact ⟨hndA.2.2.1, hndA.2.1.1⟩)
    (by simp only [List.map_append, List.mem_append, not_or]
        exact ⟨hndK.2.2.1, hndK.2.1.1⟩)
    (by rw [hval1]; exact h.val (k, a) (by simp))
  exact ⟨c1, c2, hrem, hch1, hh1, hlink, hch2⟩

theorem miss_link (c : Cache) (es : List (String × Nat)) (k : String)
    (h : Chain c es) (hk : k ∉ es.map Prod.fst) :
    ∃ c2, Cache.AddLink { heap := (alloc c.heap k).1, Queue := c.Queue, Hash := c.Hash }
        (alloc c.heap k).2 = some c2 ∧
      Chain c2 ((k, c.heap.length) :: es) ∧ c2.Hash = c.Hash := by
  show ∃ c2, Cache.AddLink
      { heap := c.heap ++ [{ Val := k, Left := none, Right := none }], Queue := c.Queue,
        Hash := c.Hash } (some c.heap.length) = some c2 ∧ _
  have hch0 := h.alloc { Val := k, Left := none, Right := none }
  have hna : c.heap.length ∉ es.map Prod.snd := by
    intro hh
    obtain ⟨e, he, he1⟩ := List.mem_map.1 hh
    have := (h.bound e he).2
    omega
  exact AddLink_spec _ es k c.heap.length hch0 ⟨h.hlen, by simp⟩ hna hk (by simp [valAt])

/-- C16 (sentinels are never removed or reported): in every state reached
from `NewCache` by `Check` calls, `Head` and `Tail` are still the two distinct
sentinels of `NewQueue`, with nothing before `Head` and nothing after `Tail`;
no node of the traversal is a sentinel; on a hit the node handed to `Remove` is
a node of the traversal and the `Add` that follows does not evict; on a miss,
whenever the overflow test of `Add` holds, the evicted node `Tail.Left` is a
node of the traversal, hence neither sentinel. -/
theorem sentinels_never_removed (ks : List String) (k : String) :
    ∃ c c0 ns hd tl, run ks = some c ∧ NewCache = some c0 ∧ c.nodes = some ns ∧
      c.Queue.Head = c0.Queue.Head ∧ c.Queue.Tail = c0.Queue.Tail ∧
      c.Queue.Head ≠ c.Queue.Tail ∧
      load c.heap c.Queue.Head = some hd ∧ hd.Left = none ∧
      load c.heap c.Queue.Tail = some tl ∧ tl.Right = none ∧
      (∀ a ∈ ns, some a ≠ c.Queue.Head ∧ some a ≠ c.Queue.Tail) ∧
      (∀ n, mapGet c.Hash k = some n →
        n ≠ c.Queue.Head ∧ n ≠ c.Queue.Tail ∧ n ∈ ns.map some ∧
        ∃ c1 c2, c.Remove n = some (c1, n) ∧ c1.AddLink n = some c2 ∧
          ¬ (c2.Queue.Length > SIZE)) ∧
      (mapGet c.Hash k = none →
        ∃ c2 ns2, Cache.AddLink
            { heap := (alloc c.heap k).1, Queue := c.Queue, Hash := c.Hash }
            (alloc c.heap k).2 = some c2 ∧
          c2.nodes = some ns2 ∧
          (c2.Queue.Length > SIZE →
            ∃ tl2 a, load c2.heap c2.Queue.Tail = some tl2 ∧ tl2.Left = some a ∧
              a ∈ ns2 ∧ some a ≠ c2.Queue.Head ∧ some a ≠ c2.Queue.Tail)) := by
  obtain ⟨c, es, hc, hr, _⟩ := run_rep ks
  obtain ⟨c0, hc0, hr0⟩ := NewCache_rep
  have hch := hr.chain
  have hge : ∀ {c1 : Cache} {es1 : List (String × Nat)}, Chain c1 es1 →
      ∀ a ∈ es1.map Prod.snd, some a ≠ c1.Queue.Head ∧ some a ≠ c1.Queue.Tail := by
    intro c1 es1 h1 a ha
    obtain ⟨e, he, rfl⟩ := List.mem_map.1 ha
    have := (h1.bound e he).1
    rw [h1.head, h1.tail]
    constructor
    · intro hh; have := Option.some.inj hh; omega
    · intro hh; have := Option.some.inj hh; omega
  obtain ⟨hd, hld, hdL⟩ := load_of_leftAt hch.headLeft
  obtain ⟨tl, hlt, htR⟩ := load_of_rightAt hch.tailRight
  refine ⟨c, c0, es.map Prod.snd, hd, tl, hc, hc0, hch.nodes_eq, ?_, ?_, ?_, ?_, hdL, ?_, htR,
    hge hch, ?_, ?_⟩
  · rw [hch.head, hr0.chain.head]
  · rw [hch.tail, hr0.chain.tail]
  · rw [hch.head, hch.tail]; decide
  · rw [hch.head]; exact hld
  · rw [hch.tail]; exact hlt
  · intro n hn
    rw [hr.hash] at hn
    obtain ⟨a, rfl, hm⟩ := mapGet_hashOf_some es k n hn
    obtain ⟨xs, ys, rfl⟩ := List.append_of_mem hm
    have hma : a ∈ (xs ++ (k, a) :: ys).map Prod.snd := List.mem_map.2 ⟨(k, a), hm, rfl⟩
    obtain ⟨c1, c2, hrem, _, _, hlink, hch2⟩ := hit_link c xs ys k a hch
    refine ⟨fun hh => (hge hch a hma).1 hh, fun hh => (hge hch a hma).2 hh,
      List.mem_map.2 ⟨a, hma, rfl⟩, c1, c2, hrem, hlink, ?_⟩
    have hcap := hr.cap
    simp only [List.length_append, List.length_cons] at hcap
    rw [hch2.len, SIZE]
    simp only [List.length_cons, List.length_append]
    push_cast
    omega
  · intro hn
    rw [hr.hash] at hn
    have hnk := (mapGet_hashOf_none es k).1 hn
    obtain ⟨c2, hlink, hch2, _⟩ := miss_link c es k hch hnk
    refine ⟨c2, _, hlink, hch2.nodes_eq, ?_⟩
    intro hover
    obtain ⟨xs, e, rfl⟩ : ∃ xs e, es = xs ++ [e] := by
      rcases List.eq_nil_or_concat es with h0 | ⟨xs, e, h0⟩
      · rw [hch2.len, h0, SIZE] at hover
        simp at hover
      · exact ⟨xs, e, by simpa using h0⟩
    have hch2a : Chain c2 (((k, c.heap.length) :: xs) ++ [e]) := by
      rw [List.cons_append]; exact hch2
    obtain ⟨tl2, hld2, hL2⟩ := hch2a.tail_left
    have hme : e.2 ∈ ((k, c.heap.length) :: (xs ++ [e])).map Prod.snd := by simp
    exact ⟨tl2, e.2, hld2, hL2, hme, hge hch2 e.2 hme⟩

/-! ## Construction and the capacity -/

/-- Counterexample to C15 as stated: on the new cache, where `Length` and the
number of keys of `Hash` are both 0, `Add` of a fresh node returns a cache of
`Length` 1 whose `Hash` is still empty. -/
theorem add_alone_breaks_length_index :
    ∃ c c2, NewCache = some c ∧ c.Queue.Length = (mapLen c.Hash : Int) ∧
      Cache.Add { heap := (alloc c.heap "a").1, Queue := c.Queue, Hash := c.Hash }
        (alloc c.heap "a").2 = some c2 ∧
      c2.Queue.Length = 1 ∧ mapLen c2.Hash = 0 ∧
      c2.Queue.Length ≠ (mapLen c2.Hash : Int) :=
  ⟨_, _, rfl, by decide, rfl, by decide, by decide, by decide⟩

/-- C15, amended: in every state reached from `NewCache` by `Check` calls,
`Length` equals the number of keys of `Hash`, and it does so again after
`Check` of any key and after `Remove` of the node `Hash` stores for a key;
after `Add` of a fresh node for a key that is not resident, as `Check` calls
it, `Length` is one more than the number of keys of `Hash`, with or without
eviction. -/
theorem length_index_after_mutation (ks : List String) (k : String) :
    ∃ c, run ks = some c ∧ c.Queue.Length = (mapLen c.Hash : Int) ∧
      (∃ c2, c.Check k = some c2 ∧ c2.Queue.Length = (mapLen c2.Hash : Int)) ∧
      (∀ n, mapGet c.Hash k = some n →
        ∃ c2, c.Remove n = some (c2, n) ∧ c2.Queue.Length = (mapLen c2.Hash : Int)) ∧
      (mapGet c.Hash k = none →
        ∃ c2, Cache.Add { heap := (alloc c.heap k).1, Queue := c.Queue, Hash := c.Hash }
            (alloc c.heap k).2 = some c2 ∧
          c2.Queue.Length = (mapLen c2.Hash : Int) + 1) := by
  obtain ⟨c, es, hc, hr, _⟩ := run_rep ks
  have hch := hr.chain
  refine ⟨c, hc, ?_, ?_, ?_, ?_⟩
  · rw [hr.length_eq, hr.mapLen_eq]
  · obtain ⟨c2, es2, hc2, hr2, _⟩ := Check_rep c es k hr
    exact ⟨c2, hc2, by rw [hr2.length_eq, hr2.mapLen_eq]⟩
  · intro n hn
    rw [hr.hash] at hn
    obtain ⟨a, rfl, hm⟩ := mapGet_hashOf_some es k n hn
    obtain ⟨xs, ys, rfl⟩ := List.append_of_mem hm
    obtain ⟨c1, hrem, hch1, hh1, _, _⟩ := Remove_spec c xs ys (k, a) hch
    refine ⟨c1, hrem, ?_⟩
    have hmid := mapDelete_hashOf_mid xs ys (k, a) hch.nodupK
    simp only at hmid
    rw [hch1.len, hh1, hr.hash, hmid]
    simp [mapLen, hashOf]
  · intro hn
    rw [hr.hash] at hn
    have hnk := (mapGet_hashOf_none es k).1 hn
    have hch0 := hch.alloc { Val := k, Left := none, Right := none }
    have hna : c.heap.length ∉ es.map Prod.snd := by
      intro hh
      obtain ⟨e, he, he1⟩ := List.mem_map.1 hh
      have := (hch.bound e he).2
      omega
    obtain ⟨c2, hadd, _, _, hcase⟩ := Add_spec _ es k c.heap.length hch0 hr.cap
      ⟨hch.hlen, by simp⟩ hna hnk (by simp [valAt])
    refine ⟨c2, hadd, ?_⟩
    rcases hcase with ⟨_, hch2, hh2⟩ | ⟨_, xs, e, hes, hch2, hh2⟩
    · rw [hch2.len, hh2]
      show _ = ((mapLen c.Hash : Nat) : Int) + 1
      rw [hr.mapLen_eq]
      simp
    · rw [hch2.len, hh2]
      show _ = ((mapLen (mapDelete c.Hash e.1) : Nat) : Int) + 1
      have hnd := hch.nodupK
      rw [hes] at hnd
      have hmid := mapDelete_hashOf_mid xs [] e hnd
      rw [List.append_nil] at hmid
      rw [hr.hash, hes, hmid]
      simp [mapLen, hashOf]

end LRU
